import Mathlib

/-!
Formal model of the core of the `processor` pipeline of this repository:
the tag-budget allocation loops of `proc.py` (`_build_tfidf_tag_index`,
`_build_textrank_tag_index`, `_build_keybert_tag_index`, `_jieba_tokenize`)
and the git attribution-index builders (`_build_git_time_index` in `proc.py`
and in `process_posts.py`).

External libraries (jieba, sklearn, textrank4zh, KeyBERT) are black boxes:
their outputs (token streams, ranked candidate lists) are inputs of the
model.  Everything after those calls is translated statement by statement
from the Python source.
-/

namespace EstomProc

/-- The `_TAG_STOPWORDS` set of `proc.py`. -/
def tagStopwords : List String :=
  ["note_image", "images", "image", "img", "http", "https", "www",
   "true", "false", "null", "none"]

/-- Python `str.lower` restricted to ASCII letters (multibyte characters are
unchanged).  Defined over the character list so the kernel can evaluate it. -/
def pyLower (s : String) : String := ⟨s.data.map Char.toLower⟩

/-- Python `str.strip` with no argument: drop whitespace from both ends. -/
def pyTrim (s : String) : String :=
  ⟨((s.data.dropWhile Char.isWhitespace).reverse.dropWhile Char.isWhitespace).reverse⟩

/-- Python `str.isdigit` restricted to ASCII content: nonempty and all digits. -/
def pyIsDigit (s : String) : Bool := !s.data.isEmpty && s.data.all Char.isDigit

/-- Python `c in s` for a single character. -/
def pyContains (s : String) (c : Char) : Bool := s.data.contains c

/-- Python `any(ch.isspace() for ch in s)`. -/
def pyHasSpace (s : String) : Bool := s.data.any Char.isWhitespace

/-- One filtering step of `_jieba_tokenize` (`proc.py` lines 129-152), folded
over the raw `jieba.cut` token stream.  `seen` is the lower-cased dedupe set. -/
def jiebaFilter (dedupe : Bool) (raw : List String) (seen : List String) : List String :=
  match raw with
  | [] => []
  | t :: rest =>
    if pyTrim t = "" then jiebaFilter dedupe rest seen
    else if pyLower (pyTrim t) ∈ tagStopwords then jiebaFilter dedupe rest seen
    else if dedupe ∧ pyLower (pyTrim t) ∈ seen then jiebaFilter dedupe rest seen
    else if (pyTrim t).length < 2 then jiebaFilter dedupe rest seen
    else if pyIsDigit (pyTrim t) then jiebaFilter dedupe rest seen
    else if pyContains (pyTrim t) '/' ∨ pyContains (pyTrim t) '\\' then
      jiebaFilter dedupe rest seen
    else pyTrim t ::
      jiebaFilter dedupe rest (if dedupe then pyLower (pyTrim t) :: seen else seen)

/-- `_jieba_tokenize` of `proc.py`: the raw token stream of `jieba.cut` is a
model input, the filtering after it is from the source. -/
def jiebaTokenize (dedupe : Bool) (raw : List String) : List String :=
  jiebaFilter dedupe raw []

/-- One document as fed to a tag-index builder.  `rel` is the path key,
`rawCut` models the `jieba.cut` output for the cleaned body, `cands` models
the ranked candidate terms returned by the extraction library for this
document (sorted by descending score, as the libraries guarantee). -/
structure SrcDoc where
  rel : String
  rawCut : List String
  cands : List String
deriving DecidableEq

/-- Per-document pick loop of `_build_tfidf_tag_index` (`proc.py` 217-231).
Returns (picked, used_global). -/
def tfidfPick (K U : Int) (cands used picked : List String) : List String × List String :=
  match cands with
  | [] => (picked, used)
  | t :: rest =>
    if t = "" then tfidfPick K U rest used picked
    else if pyLower t ∈ tagStopwords then tfidfPick K U rest used picked
    else if pyLower t ∉ used ∧ (used.length : Int) ≥ U then tfidfPick K U rest used picked
    else if ((picked ++ [t]).length : Int) ≥ K then
      (picked ++ [t], if pyLower t ∈ used then used else used ++ [pyLower t])
    else tfidfPick K U rest (if pyLower t ∈ used then used else used ++ [pyLower t])
      (picked ++ [t])

/-- Document fold of `_build_tfidf_tag_index` (`proc.py` 208-234), threading
the `used_global` set.  Returns the assignments and the final used set.
The candidate list of each row is truncated to `max(30, tag_count*10)`
entries as in line 217. -/
def tfidfGo (K U : Int) (docs : List SrcDoc) (used : List String) :
    List (String × List String) × List String :=
  match docs with
  | [] => ([], used)
  | d :: rest =>
    let pr := tfidfPick K U (d.cands.take (max 30 (K * 10)).toNat) used []
    let out := tfidfGo K U rest pr.2
    ((d.rel, pr.1) :: out.1, out.2)

/-- `_build_tfidf_tag_index` (`proc.py` 155-238): early return on
`tag_count <= 0 or not files`, then the per-document greedy pick. -/
def buildTfidfTagIndex (docs : List SrcDoc) (K U : Int) : List (String × List String) :=
  if K ≤ 0 ∨ docs = [] then [] else (tfidfGo K U docs []).1

/-- Per-document pick loop of `_build_textrank_tag_index` (`proc.py` 294-309). -/
def textrankPick (K U : Int) (cands used picked : List String) : List String × List String :=
  match cands with
  | [] => (picked, used)
  | c :: rest =>
    if pyTrim c = "" then textrankPick K U rest used picked
    else if pyLower (pyTrim c) ∈ tagStopwords then textrankPick K U rest used picked
    else if pyLower (pyTrim c) ∉ used ∧ (used.length : Int) ≥ U then
      textrankPick K U rest used picked
    else if ((picked ++ [pyTrim c]).length : Int) ≥ K then
      (picked ++ [pyTrim c],
        if pyLower (pyTrim c) ∈ used then used else used ++ [pyLower (pyTrim c)])
    else textrankPick K U rest
      (if pyLower (pyTrim c) ∈ used then used else used ++ [pyLower (pyTrim c)])
      (picked ++ [pyTrim c])

/-- Document fold of `_build_textrank_tag_index` (`proc.py` 266-311): a file
whose jieba tokenization is empty is assigned `[]` (line 275-277), otherwise
the library candidates go through the greedy pick. -/
def textrankGo (K U : Int) (docs : List SrcDoc) (used : List String) :
    List (String × List String) × List String :=
  match docs with
  | [] => ([], used)
  | d :: rest =>
    if jiebaTokenize false d.rawCut = [] then
      let out := textrankGo K U rest used
      ((d.rel, []) :: out.1, out.2)
    else
      let pr := textrankPick K U d.cands used []
      let out := textrankGo K U rest pr.2
      ((d.rel, pr.1) :: out.1, out.2)

/-- `_build_textrank_tag_index` (`proc.py` 241-316). -/
def buildTextrankTagIndex (docs : List SrcDoc) (K U : Int) : List (String × List String) :=
  if K ≤ 0 ∨ docs = [] then [] else (textrankGo K U docs []).1

/-- Per-document pick loop of `_build_keybert_tag_index` (`proc.py` 396-428),
with the local `seen_local` dedupe set. -/
def keybertPick (K U : Int) (cands used picked seen : List String) :
    List String × List String :=
  match cands with
  | [] => (picked, used)
  | c :: rest =>
    if pyTrim c = "" then keybertPick K U rest used picked seen
    else if pyHasSpace (pyTrim c) then keybertPick K U rest used picked seen
    else if pyLower (pyTrim c) ∈ tagStopwords then keybertPick K U rest used picked seen
    else if pyLower (pyTrim c) ∈ seen then keybertPick K U rest used picked seen
    else if (pyTrim c).length < 2 then keybertPick K U rest used picked seen
    else if pyIsDigit (pyTrim c) then keybertPick K U rest used picked seen
    else if pyContains (pyTrim c) '/' ∨ pyContains (pyTrim c) '\\' then
      keybertPick K U rest used picked seen
    else if pyLower (pyTrim c) ∉ used ∧ (used.length : Int) ≥ U then
      keybertPick K U rest used picked seen
    else if ((picked ++ [pyTrim c]).length : Int) ≥ K then
      (picked ++ [pyTrim c],
        if pyLower (pyTrim c) ∈ used then used else used ++ [pyLower (pyTrim c)])
    else keybertPick K U rest
      (if pyLower (pyTrim c) ∈ used then used else used ++ [pyLower (pyTrim c)])
      (picked ++ [pyTrim c]) (pyLower (pyTrim c) :: seen)

/-- Document fold of `_build_keybert_tag_index` (`proc.py` 372-432): empty
tokenization is assigned `[]` (line 377-380), otherwise the greedy pick runs
over the KeyBERT candidates. -/
def keybertGo (K U : Int) (docs : List SrcDoc) (used : List String) :
    List (String × List String) × List String :=
  match docs with
  | [] => ([], used)
  | d :: rest =>
    if jiebaTokenize false d.rawCut = [] then
      let out := keybertGo K U rest used
      ((d.rel, []) :: out.1, out.2)
    else
      let pr := keybertPick K U d.cands used [] []
      let out := keybertGo K U rest pr.2
      ((d.rel, pr.1) :: out.1, out.2)

/-- `_build_keybert_tag_index` (`proc.py` 319-436). -/
def buildKeybertTagIndex (docs : List SrcDoc) (K U : Int) : List (String × List String) :=
  if K ≤ 0 ∨ docs = [] then [] else (keybertGo K U docs []).1

/-- All terms assigned across all documents of an index, lower-cased. -/
def lowerAssigned (out : List (String × List String)) : List String :=
  ((out.map Prod.snd).flatten).map pyLower

/-- One parsed `--name-status` event: a status line `status\tpath` (status is
`A`, `M`, `D`, ...) or a rename line `Rxxx\told\tnew`. -/
inductive GitEv where
  | touch (status : String) (path : String)
  | rename (oldName : String) (newName : String)
deriving DecidableEq

/-- One change record: the commit timestamp (the `__TS__` marker line in
effect) together with one event of that commit. -/
structure GitRecord where
  ts : Int
  ev : GitEv
deriving DecidableEq

/-- Whether a record is a rename line. -/
def isRenameRec (r : GitRecord) : Bool :=
  match r.ev with
  | .rename _ _ => true
  | .touch _ _ => false

/-- Whether a record is an `A`/`M`/`D` line naming exactly the path `p`. -/
def touchesPath (p : String) (r : GitRecord) : Bool :=
  match r.ev with
  | .touch _ q => q == p
  | .rename _ _ => false

/-- Whether a record is an `A` status line for path `p`. -/
def isATouch (p : String) (r : GitRecord) : Bool :=
  match r.ev with
  | .touch status q => status == "A" && q == p
  | .rename _ _ => false

/-- A stream with no rename lines. -/
def noRenames (recs : List GitRecord) : Prop :=
  ∀ r ∈ recs, isRenameRec r = false

/-- Point update of a string-keyed dictionary (Python `d[k] = v`). -/
def dupd {α : Type} (f : String → Option α) (k : String) (v : α) : String → Option α :=
  fun x => if x = k then some v else f x

/-- Python `d.setdefault(k, v)`: keep an existing entry, else insert `v`. -/
def dsetdefault {α : Type} (f : String → Option α) (k : String) (v : α) :
    String → Option α :=
  fun x => if x = k then some ((f k).getD v) else f x

/-- Keep the first `Option` when present, else the second. -/
def oFirst {α : Type} (a b : Option α) : Option α :=
  match a with
  | some x => some x
  | none => b

/-- State of the `proc.py` scan loop (`_build_git_time_index`, lines 859-862):
the `back_trace` alias dictionary and the `updated` / `created` dictionaries. -/
structure ProcState where
  backTrace : String → Option String
  updated : String → Option Int
  created : String → Option Int

/-- Initial state: all three dictionaries empty. -/
def procInit : ProcState :=
  { backTrace := fun _ => none, updated := fun _ => none, created := fun _ => none }

/-- The shared name resolution of both branches of `proc.py` (lines 920-925 and
934-939): a path of interest stands for itself; otherwise a single `back_trace`
lookup is accepted when its value is truthy (nonempty) and of interest. -/
def btFinal (interest : List String) (bt : String → Option String) (p : String) :
    Option String :=
  if p ∈ interest then some p
  else
    match bt p with
    | some f => if f ≠ "" ∧ f ∈ interest then some f else none
    | none => none

/-- Record `updated` (set-if-absent) and `created` (overwrite) for `final` at
timestamp `t` (`proc.py` lines 928-929 and 941-942). -/
def attrib (st : ProcState) (final : String) (t : Int) : ProcState :=
  { st with
    updated := dsetdefault st.updated final t
    created := dupd st.created final t }

/-- One record of the `proc.py` scan loop (lines 911-944). -/
def procStep (interest : List String) (st : ProcState) (r : GitRecord) : ProcState :=
  match r.ev with
  | .rename oldName newName =>
    match btFinal interest st.backTrace newName with
    | none => st
    | some final =>
      { attrib st final r.ts with backTrace := dupd st.backTrace oldName final }
  | .touch _ path =>
    match btFinal interest st.backTrace path with
    | none => st
    | some final => attrib st final r.ts

/-- The full scan loop of `proc.py`: a plain fold, no early stop (the `done`
set declared at line 862 is never used). -/
def procRun (interest : List String) : ProcState → List GitRecord → ProcState
  | st, [] => st
  | st, r :: rs => procRun interest (procStep interest st r) rs

/-- The result dictionary of `proc.py` (lines 952-957): each interest path
with both a `created` and an `updated` entry. -/
def procResult (interest : List String) (recs : List GitRecord) :
    String → Option (Int × Int) := fun k =>
  if k ∈ interest then
    match (procRun interest procInit recs).created k,
        (procRun interest procInit recs).updated k with
    | some c, some u => some (c, u)
    | _, _ => none
  else none

/-- Outcome of the single `git log` invocation, as seen by the builder:
either the executable is missing (`FileNotFoundError`) or the process
completed with an exit code and a (parsed) record stream. -/
inductive GitInvocation where
  | toolMissing
  | completed (exitCode : Int) (records : List GitRecord)

/-- `_build_git_time_index` of `proc.py` (lines 818-960) over the invocation
outcome: empty interest short-circuits before git runs; a missing tool raises
(`Except.error` with the source's message); a non-zero exit returns the empty
index; otherwise the scan loop runs over the streamed records. -/
def buildGitTimeIndex (interest : List String) (inv : GitInvocation) :
    Except String (String → Option (Int × Int)) :=
  if interest = [] then .ok (fun _ => none)
  else
    match inv with
    | .toolMissing => .error "未找到 git 命令，请先安装 git"
    | .completed exitCode records =>
      if exitCode ≠ 0 then .ok (fun _ => none)
      else .ok (procResult interest records)

/-- State of the `process_posts.py` scan loop (lines 357-362): the `back_alias`
dictionary (an association list, newest entry first), the time dictionaries and
the `done` set of interest paths that have seen an `A` record. -/
structure PPState where
  backAlias : List (String × String)
  updated : String → Option Int
  created : String → Option Int
  done : List String

/-- Initial `process_posts.py` state. -/
def ppInit : PPState :=
  { backAlias := [], updated := fun _ => none, created := fun _ => none, done := [] }

/-- `resolve_final` of `process_posts.py` (lines 364-373): follow the alias
chain to its end and compress every traversed entry onto the result.  The
Python `while` loop does not terminate on a cyclic table; the model consumes
one unit of fuel per hop and is always called with more fuel than any acyclic
chain can be long. -/
def resolveFinal (bt : List (String × String)) (fuel : Nat) (name : String) :
    String × List (String × String) :=
  match fuel with
  | 0 => (name, bt)
  | fuel + 1 =>
    match List.lookup name bt with
    | none => (name, bt)
    | some next =>
      let pr := resolveFinal bt fuel next
      (pr.1, (name, pr.1) :: pr.2)

/-- One record of the `process_posts.py` scan loop (lines 376-417), without
the `break`. -/
def ppStep (interest : List String) (st : PPState) (r : GitRecord) : PPState :=
  match r.ev with
  | .rename oldName newName =>
    let pr := resolveFinal st.backAlias (st.backAlias.length + 1) newName
    if pr.1 ∈ interest then
      { st with
        backAlias := (oldName, pr.1) :: pr.2
        updated := dsetdefault st.updated pr.1 r.ts
        created := dupd st.created pr.1 r.ts }
    else { st with backAlias := pr.2 }
  | .touch status path =>
    let pr := resolveFinal st.backAlias (st.backAlias.length + 1) path
    if pr.1 ∈ interest then
      { st with
        backAlias := pr.2
        updated := dsetdefault st.updated pr.1 r.ts
        created := dupd st.created pr.1 r.ts
        done :=
          if status = "A" then
            (if pr.1 ∈ st.done then st.done else pr.1 :: st.done)
          else st.done }
    else { st with backAlias := pr.2 }

/-- The `break` condition of `process_posts.py` (lines 414-417): the record is
an `A` line whose resolved path is of interest, and after adding it the `done`
set covers every interest path. -/
def isBreakRec (interest : List String) (st : PPState) (r : GitRecord) : Bool :=
  match r.ev with
  | .touch status path =>
    status == "A" &&
      decide ((resolveFinal st.backAlias (st.backAlias.length + 1) path).1 ∈ interest) &&
      (ppStep interest st r).done.length == interest.length
  | .rename _ _ => false

/-- The early-stopping scan loop of `process_posts.py`. -/
def ppRun (interest : List String) : PPState → List GitRecord → PPState
  | st, [] => st
  | st, r :: rs =>
    let stNew := ppStep interest st r
    if isBreakRec interest st r then stNew else ppRun interest stNew rs

/-- The same loop with the `break` removed (every record processed). -/
def ppRunNB (interest : List String) : PPState → List GitRecord → PPState
  | st, [] => st
  | st, r :: rs => ppRunNB interest (ppStep interest st r) rs

/-- The result dictionary of `process_posts.py` (lines 432-437). -/
def ppResult (interest : List String) (recs : List GitRecord) :
    String → Option (Int × Int) := fun k =>
  if k ∈ interest then
    match (ppRun interest ppInit recs).created k,
        (ppRun interest ppInit recs).updated k with
    | some c, some u => some (c, u)
    | _, _ => none
  else none

/-- No record touching `p` occurs later in the stream (older in real time)
than an `A` record touching `p`: the stream never deletes-and-re-adds `p`. -/
def noTouchAfterA (p : String) : List GitRecord → Bool
  | [] => true
  | r :: rs =>
    if isATouch p r then
      rs.all (fun x => !touchesPath p x) && noTouchAfterA p rs
    else noTouchAfterA p rs

lemma btFinal_mem {interest : List String} {bt : String → Option String} {p f : String}
    (h : btFinal interest bt p = some f) : f ∈ interest := by
  unfold btFinal at h
  split at h
  · cases h
    assumption
  · split at h
    · split at h
      · cases h
        rename_i hg
        exact hg.2
      · cases h
    · cases h

lemma procStep_backTrace_inv {interest : List String} {st : ProcState} {r : GitRecord}
    (h : ∀ k v, st.backTrace k = some v → v ∈ interest) :
    ∀ k v, (procStep interest st r).backTrace k = some v → v ∈ interest := by
  intro k v hkv
  unfold procStep at hkv
  split at hkv
  · -- rename line
    rename_i oldName newName heq
    split at hkv
    · exact h k v hkv
    · rename_i final hbf
      simp only [attrib, dupd] at hkv
      by_cases hko : k = oldName
      · rw [if_pos hko] at hkv
        cases hkv
        exact btFinal_mem hbf
      · rw [if_neg hko] at hkv
        exact h k v hkv
  · -- touch line
    split at hkv
    · exact h k v hkv
    · exact h k v hkv

lemma procRun_backTrace_inv {interest : List String} :
    ∀ (recs : List GitRecord) (st : ProcState),
      (∀ k v, st.backTrace k = some v → v ∈ interest) →
      ∀ k v, (procRun interest st recs).backTrace k = some v → v ∈ interest := by
  intro recs
  induction recs with
  | nil =>
    intro st h k v hkv
    exact h k v (by simpa [procRun] using hkv)
  | cons r rs ih =>
    intro st h k v hkv
    exact ih (procStep interest st r) (procStep_backTrace_inv h) k v
      (by simpa [procRun] using hkv)

/-- C9 (amended): every value stored in the `back_trace` alias table of
`proc.py`'s `_build_git_time_index` is a member of the interest set, so the
single dictionary lookup the scan performs always lands on an interest path
and no chain traversal happens in `proc.py`. -/
theorem back_trace_values_in_interest (interest : List String) (recs : List GitRecord)
    (k v : String) (h : (procRun interest procInit recs).backTrace k = some v) :
    v ∈ interest :=
  procRun_backTrace_inv recs procInit
    (by intro k v hkv; simp [procInit] at hkv) k v h

theorem back_trace_values_in_interest_witness : "b" ∈ ["b"] :=
  back_trace_values_in_interest ["b"] [⟨1, .rename "a" "b"⟩] "a" "b" (by decide)

/-- C9 (counterexample): with interest set `{a, b}` and the newest-first
stream `R b→a`, `R x→b`, the alias table maps `x ↦ b` and `b ↦ a`: the value
stored for `x` is itself an aliased key, so the alias chain starting at `x`
has length two, not one, and one lookup of `x` yields `b` although the chain
ends at `a`. -/
theorem alias_chain_length_two_example :
    (procRun ["a", "b"] procInit
        [⟨2, .rename "b" "a"⟩, ⟨1, .rename "x" "b"⟩]).backTrace "x" = some "b" ∧
    (procRun ["a", "b"] procInit
        [⟨2, .rename "b" "a"⟩, ⟨1, .rename "x" "b"⟩]).backTrace "b" = some "a" ∧
    "b" ≠ "a" := by
  refine ⟨by decide, by decide, by decide⟩

/-- C3: for the newest-first stream `R A→B`, `R X→A`, followed by touches of
`X` and `A` (with only `B` of interest), both histories are attributed to the
final path `B` — after the `X` touch `B`'s entry is `(t3, t1)`, after the `A`
touch it is `(t4, t1)` — and the `back_trace` table resolves the historical
name `X` to `B`. -/
theorem rename_chain_attributes_to_final (S : List String) (A B X : String)
    (t1 t2 t3 t4 : Int)
    (hB : B ∈ S) (hA : A ∉ S) (hX : X ∉ S) (hXA : X ≠ A) (hBne : B ≠ "")
    (_hord : t4 ≤ t3 ∧ t3 ≤ t2 ∧ t2 ≤ t1) :
    procResult S [⟨t1, .rename A B⟩, ⟨t2, .rename X A⟩,
        ⟨t3, .touch "M" X⟩, ⟨t4, .touch "M" A⟩] B = some (t4, t1) ∧
    procResult S [⟨t1, .rename A B⟩, ⟨t2, .rename X A⟩,
        ⟨t3, .touch "M" X⟩] B = some (t3, t1) ∧
    (procRun S procInit [⟨t1, .rename A B⟩, ⟨t2, .rename X A⟩,
        ⟨t3, .touch "M" X⟩, ⟨t4, .touch "M" A⟩]).backTrace X = some B := by
  have hAB : A ≠ B := fun h => hA (h ▸ hB)
  have hAX : A ≠ X := hXA.symm
  refine ⟨?_, ?_, ?_⟩ <;>
    simp [procResult, procRun, procStep, btFinal, attrib, dupd, dsetdefault,
      procInit, hB, hA, hX, hXA, hAX, hAB, hBne]

theorem rename_chain_attributes_to_final_witness :
    procResult ["b.md"] [⟨4, .rename "a.md" "b.md"⟩, ⟨3, .rename "x.md" "a.md"⟩,
        ⟨2, .touch "M" "x.md"⟩, ⟨1, .touch "M" "a.md"⟩] "b.md" = some (1, 4) ∧
    procResult ["b.md"] [⟨4, .rename "a.md" "b.md"⟩, ⟨3, .rename "x.md" "a.md"⟩,
        ⟨2, .touch "M" "x.md"⟩] "b.md" = some (2, 4) ∧
    (procRun ["b.md"] procInit [⟨4, .rename "a.md" "b.md"⟩, ⟨3, .rename "x.md" "a.md"⟩,
        ⟨2, .touch "M" "x.md"⟩, ⟨1, .touch "M" "a.md"⟩]).backTrace "x.md" = some "b.md" :=
  rename_chain_attributes_to_final ["b.md"] "a.md" "b.md" "x.md" 4 3 2 1
    (by decide) (by decide) (by decide) (by decide) (by decide)
    ⟨by decide, by decide, by decide⟩

/-- C5: on the three-document corpus D1 `["go","go","rust"]`,
D2 `["rust","proxy"]`, D3 `["proxy","cache"]` with `tag_count = 1` and
`max_unique_tags = 2`, the tfidf greedy allocator assigns D1 `["go"]`,
D2 `["rust"]`, and D3 the empty list. -/
theorem tfidf_greedy_scenario :
    buildTfidfTagIndex
      [⟨"D1", [], ["go", "go", "rust"]⟩, ⟨"D2", [], ["rust", "proxy"]⟩,
       ⟨"D3", [], ["proxy", "cache"]⟩] 1 2
      = [("D1", ["go"]), ("D2", ["rust"]), ("D3", [])] := by decide

/-- C7: with a nonempty interest set, a missing git executable makes
`_build_git_time_index` fail with the "git not found" error, while a non-zero
exit code or an empty log output yields an empty index without raising. -/
theorem git_index_error_handling (interest : List String) (code : Int)
    (recs : List GitRecord) (hne : interest ≠ []) :
    buildGitTimeIndex interest GitInvocation.toolMissing
        = Except.error "未找到 git 命令，请先安装 git" ∧
    (code ≠ 0 →
      buildGitTimeIndex interest (GitInvocation.completed code recs)
        = Except.ok (fun _ => none)) ∧
    ∃ f, buildGitTimeIndex interest (GitInvocation.completed 0 []) = Except.ok f ∧
      ∀ p, f p = none := by
  refine ⟨?_, ?_, ?_⟩
  · simp [buildGitTimeIndex, hne]
  · intro hc
    simp [buildGitTimeIndex, hne, hc]
  · refine ⟨procResult interest [], ?_, ?_⟩
    · simp [buildGitTimeIndex, hne]
    · intro p
      by_cases hp : p ∈ interest <;>
        simp [procResult, procRun, procInit, hp]

theorem git_index_error_handling_witness :
    buildGitTimeIndex ["a.md"] GitInvocation.toolMissing
        = Except.error "未找到 git 命令，请先安装 git" ∧
    (buildGitTimeIndex ["a.md"] (GitInvocation.completed 1 [])
        = Except.ok (fun _ => none)) ∧
    ∃ f, buildGitTimeIndex ["a.md"] (GitInvocation.completed 0 []) = Except.ok f ∧
      ∀ p, f p = none := by
  have h := git_index_error_handling ["a.md"] 1 [] (by decide)
  exact ⟨h.1, h.2.1 (by decide), h.2.2⟩

/-- C10: each of the three tag-index builders returns the completely empty
mapping — no document keys at all — when the requested per-document tag count
is non-positive or the file list is empty. -/
theorem empty_index_on_nonpositive_count_or_no_files (docs : List SrcDoc) (K U : Int) :
    (K ≤ 0 →
      buildTfidfTagIndex docs K U = [] ∧ buildTextrankTagIndex docs K U = [] ∧
        buildKeybertTagIndex docs K U = []) ∧
    (buildTfidfTagIndex [] K U = [] ∧ buildTextrankTagIndex [] K U = [] ∧
      buildKeybertTagIndex [] K U = []) := by
  constructor
  · intro h
    exact ⟨by simp [buildTfidfTagIndex, h], by simp [buildTextrankTagIndex, h],
      by simp [buildKeybertTagIndex, h]⟩
  · exact ⟨by simp [buildTfidfTagIndex], by simp [buildTextrankTagIndex],
      by simp [buildKeybertTagIndex]⟩

theorem empty_index_on_nonpositive_count_or_no_files_witness :
    buildTfidfTagIndex [⟨"D1", [], ["go"]⟩] 0 5 = [] ∧
    buildTextrankTagIndex [⟨"D1", [], ["go"]⟩] 0 5 = [] ∧
    buildKeybertTagIndex [⟨"D1", [], ["go"]⟩] 0 5 = [] :=
  (empty_index_on_nonpositive_count_or_no_files [⟨"D1", [], ["go"]⟩] 0 5).1 (by decide)

/-- Invariant of the `proc.py` scan on a newest-first stream: `created` and
`updated` are populated together, `created ≤ updated` pointwise, and every
recorded `created` value dominates the timestamps still to come. -/
structure GoodTimes (created updated : String → Option Int) (rest : List GitRecord) : Prop where
  dom : ∀ k, (created k).isSome ↔ (updated k).isSome
  le : ∀ k c u, created k = some c → updated k = some u → c ≤ u
  bound : ∀ k c, created k = some c → ∀ r ∈ rest, r.ts ≤ c

lemma goodTimes_weaken {cr up : String → Option Int} {r : GitRecord}
    {rest : List GitRecord} (h : GoodTimes cr up (r :: rest)) : GoodTimes cr up rest := by
  refine ⟨h.dom, h.le, ?_⟩
  intro k c hk x hx
  exact h.bound k c hk x (List.mem_cons_of_mem r hx)

lemma attrib_goodTimes {cr up : String → Option Int} {r0 : GitRecord}
    {rest : List GitRecord} {final : String}
    (h : GoodTimes cr up (r0 :: rest)) (hpw : ∀ x ∈ rest, x.ts ≤ r0.ts) :
    GoodTimes (dupd cr final r0.ts) (dsetdefault up final r0.ts) rest := by
  refine ⟨?_, ?_, ?_⟩
  · intro k
    unfold dupd dsetdefault
    by_cases hk : k = final
    · simp [hk]
    · simp only [if_neg hk]
      exact h.dom k
  · intro k c u hc hu
    unfold dupd at hc
    unfold dsetdefault at hu
    by_cases hk : k = final
    · rw [if_pos hk] at hc hu
      cases hc
      cases hup : up final with
      | none => rw [hup] at hu; cases hu; exact le_refl _
      | some u0 =>
        rw [hup] at hu
        cases hu
        have hcrs : (cr final).isSome := (h.dom final).mpr (by simp [hup])
        obtain ⟨c0, hc0⟩ := Option.isSome_iff_exists.mp hcrs
        have h1 : r0.ts ≤ c0 := h.bound final c0 hc0 r0 (List.mem_cons_self r0 rest)
        have h2 : c0 ≤ u0 := h.le final c0 u0 hc0 hup
        simp
        exact le_trans h1 h2
    · rw [if_neg hk] at hc hu
      exact h.le k c u hc hu
  · intro k c hc x hx
    unfold dupd at hc
    by_cases hk : k = final
    · rw [if_pos hk] at hc
      cases hc
      exact hpw x hx
    · rw [if_neg hk] at hc
      exact h.bound k c hc x (List.mem_cons_of_mem r0 hx)

lemma procStep_goodTimes {interest : List String} {st : ProcState} {r : GitRecord}
    {rest : List GitRecord}
    (h : GoodTimes st.created st.updated (r :: rest)) (hpw : ∀ x ∈ rest, x.ts ≤ r.ts) :
    GoodTimes (procStep interest st r).created (procStep interest st r).updated rest := by
  unfold procStep
  split
  · split
    · exact goodTimes_weaken h
    · exact attrib_goodTimes h hpw
  · split
    · exact goodTimes_weaken h
    · exact attrib_goodTimes h hpw

lemma procRun_goodTimes {interest : List String} :
    ∀ (recs : List GitRecord) (st : ProcState),
      GoodTimes st.created st.updated recs →
      recs.Pairwise (fun a b => b.ts ≤ a.ts) →
      GoodTimes (procRun interest st recs).created (procRun interest st recs).updated [] := by
  intro recs
  induction recs with
  | nil =>
    intro st h _
    simpa [procRun] using h
  | cons r rs ih =>
    intro st h hpw
    rw [List.pairwise_cons] at hpw
    have step := @procStep_goodTimes interest st r rs h
      (fun x hx => hpw.1 x hx)
    simpa [procRun] using ih (procStep interest st r) step hpw.2

/-- C8: on a newest-first (non-increasing timestamp) stream, every entry the
`proc.py` builder emits satisfies `created ≤ updated`. -/
theorem created_le_updated (interest : List String) (recs : List GitRecord)
    (hsort : recs.Pairwise (fun a b => b.ts ≤ a.ts))
    (p : String) (c u : Int) (h : procResult interest recs p = some (c, u)) :
    c ≤ u := by
  have hinit : GoodTimes procInit.created procInit.updated recs := by
    refine ⟨?_, ?_, ?_⟩ <;> intro k <;> simp [procInit]
  have hg := @procRun_goodTimes interest recs procInit hinit hsort
  unfold procResult at h
  split at h
  · split at h
    · rename_i c0 u0 hc0 hu0
      cases h
      exact hg.le p c u hc0 hu0
    · cases h
  · cases h

theorem created_le_updated_witness : (1 : Int) ≤ 3 :=
  created_le_updated ["b"] [⟨3, .touch "A" "b"⟩, ⟨1, .touch "M" "b"⟩]
    (by decide) "b" 1 3 (by decide)

lemma oFirst_none_right {α : Type} (a : Option α) : oFirst a none = a := by
  cases a <;> rfl

lemma oFirst_assoc {α : Type} (a b c : Option α) :
    oFirst (oFirst a b) c = oFirst a (oFirst b c) := by
  cases a <;> rfl

lemma getLast?_cons_oFirst {α : Type} (a : α) (l : List α) :
    (a :: l).getLast? = oFirst l.getLast? (some a) := by
  cases l with
  | nil => rfl
  | cons b l =>
    rw [List.getLast?_cons_cons]
    obtain ⟨x, hx⟩ := Option.isSome_iff_exists.mp
      (List.getLast?_isSome.mpr (by simp : (b :: l) ≠ []))
    rw [hx]
    rfl

lemma attrib_backTrace (st : ProcState) (final : String) (t : Int) :
    (attrib st final t).backTrace = st.backTrace := rfl

/-- On a rename-free stream the `proc.py` fold leaves `back_trace` empty and
its `updated` / `created` entries for an interest path `p` are the timestamps
of, respectively, the first and the last stream record touching `p`. -/
lemma procRun_norename_char {interest : List String} {p : String} (hp : p ∈ interest) :
    ∀ (recs : List GitRecord) (st : ProcState),
      noRenames recs → st.backTrace = (fun _ => none) →
      (procRun interest st recs).updated p
          = oFirst (st.updated p)
              (((recs.filter (fun r => touchesPath p r)).head?).map GitRecord.ts) ∧
      (procRun interest st recs).created p
          = oFirst (((recs.filter (fun r => touchesPath p r)).getLast?).map GitRecord.ts)
              (st.created p) := by
  intro recs
  induction recs with
  | nil =>
    intro st hnr hbt
    constructor
    · simp [procRun, List.filter_nil, oFirst_none_right]
    · simp [procRun, List.filter_nil, oFirst]
  | cons r rs ih =>
    intro st hnr hbt
    have hnr' : noRenames rs := fun x hx => hnr x (List.mem_cons_of_mem r hx)
    cases hev : r.ev with
    | rename o n =>
      exfalso
      have := hnr r (List.mem_cons_self r rs)
      unfold isRenameRec at this
      rw [hev] at this
      cases this
    | touch status q =>
      have hstep : procStep interest st r = if q ∈ interest then attrib st q r.ts else st := by
        by_cases hq : q ∈ interest <;> simp [procStep, hev, btFinal, hbt, hq]
      have hrun : procRun interest st (r :: rs)
          = procRun interest (procStep interest st r) rs := by
        simp [procRun]
      by_cases hqp : q = p
      · subst hqp
        have hq : q ∈ interest := hp
        have htp : touchesPath q r = true := by
          unfold touchesPath
          rw [hev]
          simp
        have hfilter : (r :: rs).filter (fun x => touchesPath q x)
            = r :: rs.filter (fun x => touchesPath q x) :=
          List.filter_cons_of_pos htp
        have hbt' : (attrib st q r.ts).backTrace = (fun _ => none) := by
          rw [attrib_backTrace]
          exact hbt
        obtain ⟨ihu, ihc⟩ := ih (attrib st q r.ts) hnr' hbt'
        rw [hrun, hstep, if_pos hq]
        constructor
        · rw [ihu, hfilter]
          have hupd : (attrib st q r.ts).updated q = some ((st.updated q).getD r.ts) := by
            simp [attrib, dsetdefault]
          rw [hupd]
          cases hu : st.updated q with
          | none => simp [oFirst]
          | some u0 => simp [oFirst]
        · rw [ihc, hfilter, getLast?_cons_oFirst]
          have hcr : (attrib st q r.ts).created q = some r.ts := by
            simp [attrib, dupd]
          rw [hcr]
          cases hl : (rs.filter (fun x => touchesPath q x)).getLast? with
          | none => simp [oFirst]
          | some rl => simp [oFirst]
      · have htp : touchesPath p r = false := by
          unfold touchesPath
          rw [hev]
          simp [hqp]
        have hfilter : (r :: rs).filter (fun x => touchesPath p x)
            = rs.filter (fun x => touchesPath p x) :=
          List.filter_cons_of_neg (by simp [htp])
        by_cases hq : q ∈ interest
        · have hbt' : (attrib st q r.ts).backTrace = (fun _ => none) := by
            rw [attrib_backTrace]
            exact hbt
          obtain ⟨ihu, ihc⟩ := ih (attrib st q r.ts) hnr' hbt'
          have hpq : p ≠ q := fun h => hqp h.symm
          have hupd : (attrib st q r.ts).updated p = st.updated p := by
            simp [attrib, dsetdefault, hpq]
          have hcr : (attrib st q r.ts).created p = st.created p := by
            simp [attrib, dupd, hpq]
          rw [hrun, hstep, if_pos hq]
          exact ⟨by rw [ihu, hupd, hfilter], by rw [ihc, hcr, hfilter]⟩
        · obtain ⟨ihu, ihc⟩ := ih st hnr' hbt
          rw [hrun, hstep, if_neg hq]
          exact ⟨by rw [ihu, hfilter], by rw [ihc, hfilter]⟩

lemma pairwise_le_head {l : List GitRecord} {r0 : GitRecord}
    (hpw : l.Pairwise (fun a b => b.ts ≤ a.ts)) (hh : l.head? = some r0) :
    ∀ r ∈ l, r.ts ≤ r0.ts := by
  cases l with
  | nil => cases hh
  | cons a l =>
    have ha : a = r0 := by simpa using hh
    subst ha
    rw [List.pairwise_cons] at hpw
    intro r hr
    rcases List.mem_cons.mp hr with h | h
    · rw [h]
    · exact hpw.1 r h

lemma pairwise_le_getLast {l : List GitRecord} {rl : GitRecord}
    (hpw : l.Pairwise (fun a b => b.ts ≤ a.ts)) (hl : l.getLast? = some rl) :
    ∀ r ∈ l, rl.ts ≤ r.ts := by
  induction l with
  | nil => cases hl
  | cons a l ih =>
    rw [List.pairwise_cons] at hpw
    cases l with
    | nil =>
      have ha : a = rl := by simpa using hl
      subst ha
      intro r hr
      have : r = a := by simpa using hr
      rw [this]
    | cons b l2 =>
      rw [List.getLast?_cons_cons] at hl
      have hmem : rl ∈ b :: l2 := List.mem_of_getLast?_eq_some hl
      intro r hr
      rcases List.mem_cons.mp hr with h | h
      · rw [h]
        exact hpw.1 rl hmem
      · exact ih hpw.2 hl r h

/-- C1: on a newest-first rename-free stream, the `proc.py` builder maps each
interest path `p` with nonempty history to the pair (timestamp of the oldest
record touching `p`, timestamp of the newest record touching `p`). -/
theorem attribution_no_rename_oldest_newest (interest : List String)
    (recs : List GitRecord)
    (hsort : recs.Pairwise (fun a b => b.ts ≤ a.ts))
    (hnr : noRenames recs) (p : String) (hp : p ∈ interest)
    (htouch : ∃ r ∈ recs, touchesPath p r = true) :
    ∃ c u, procResult interest recs p = some (c, u) ∧
      (∀ r ∈ recs, touchesPath p r = true → c ≤ r.ts ∧ r.ts ≤ u) ∧
      (∃ r ∈ recs, touchesPath p r = true ∧ r.ts = c) ∧
      (∃ r ∈ recs, touchesPath p r = true ∧ r.ts = u) := by
  obtain ⟨r1, hr1, ht1⟩ := htouch
  have hmemf : r1 ∈ recs.filter (fun r => touchesPath p r) :=
    List.mem_filter.mpr ⟨hr1, ht1⟩
  obtain ⟨r0, tl, hfl⟩ : ∃ r0 tl, recs.filter (fun r => touchesPath p r) = r0 :: tl := by
    cases hfl : recs.filter (fun r => touchesPath p r) with
    | nil => rw [hfl] at hmemf; cases hmemf
    | cons r0 tl => exact ⟨r0, tl, rfl⟩
  have hhead : (recs.filter (fun r => touchesPath p r)).head? = some r0 := by
    rw [hfl]
    rfl
  obtain ⟨rl, hlast⟩ : ∃ rl, (recs.filter (fun r => touchesPath p r)).getLast? = some rl := by
    refine Option.isSome_iff_exists.mp ?_
    rw [hfl]
    exact List.getLast?_isSome.mpr (by simp)
  obtain ⟨hu, hc⟩ := procRun_norename_char hp recs procInit hnr rfl
  rw [hhead] at hu
  rw [hlast] at hc
  have hures : (procRun interest procInit recs).updated p = some r0.ts := by
    rw [hu]
    rfl
  have hcres : (procRun interest procInit recs).created p = some rl.ts := by
    rw [hc]
    rfl
  have hres : procResult interest recs p = some (rl.ts, r0.ts) := by
    unfold procResult
    rw [if_pos hp, hcres, hures]
  have hpwf : (recs.filter (fun r => touchesPath p r)).Pairwise (fun a b => b.ts ≤ a.ts) :=
    hsort.sublist (List.filter_sublist recs)
  have hmax := pairwise_le_head hpwf hhead
  have hmin := pairwise_le_getLast hpwf hlast
  refine ⟨rl.ts, r0.ts, hres, ?_, ?_, ?_⟩
  · intro r hr ht
    have hrf : r ∈ recs.filter (fun x => touchesPath p x) := List.mem_filter.mpr ⟨hr, ht⟩
    exact ⟨hmin r hrf, hmax r hrf⟩
  · have := List.mem_of_getLast?_eq_some hlast
    have hmem := List.mem_filter.mp this
    exact ⟨rl, hmem.1, by simpa using hmem.2, rfl⟩
  · have : r0 ∈ recs.filter (fun x => touchesPath p x) := by
      rw [hfl]
      exact List.mem_cons_self r0 tl
    have hmem := List.mem_filter.mp this
    exact ⟨r0, hmem.1, by simpa using hmem.2, rfl⟩

theorem attribution_no_rename_oldest_newest_witness :
    ∃ c u, procResult ["b"] [⟨7, .touch "M" "b"⟩, ⟨5, .touch "M" "a"⟩, ⟨2, .touch "A" "b"⟩] "b"
        = some (c, u) ∧
      (∀ r ∈ [(⟨7, .touch "M" "b"⟩ : GitRecord), ⟨5, .touch "M" "a"⟩, ⟨2, .touch "A" "b"⟩],
        touchesPath "b" r = true → c ≤ r.ts ∧ r.ts ≤ u) ∧
      (∃ r ∈ [(⟨7, .touch "M" "b"⟩ : GitRecord), ⟨5, .touch "M" "a"⟩, ⟨2, .touch "A" "b"⟩],
        touchesPath "b" r = true ∧ r.ts = c) ∧
      (∃ r ∈ [(⟨7, .touch "M" "b"⟩ : GitRecord), ⟨5, .touch "M" "a"⟩, ⟨2, .touch "A" "b"⟩],
        touchesPath "b" r = true ∧ r.ts = u) :=
  attribution_no_rename_oldest_newest ["b"]
    [⟨7, .touch "M" "b"⟩, ⟨5, .touch "M" "a"⟩, ⟨2, .touch "A" "b"⟩]
    (by decide) (by unfold noRenames; decide) "b" (by decide)
    ⟨⟨7, .touch "M" "b"⟩, by decide, by decide⟩

/-- C2 (counterexample): on the newest-first stream `A b` at 300 then `M b`
at 100 with interest `{b}`, the early-stopping builder of `process_posts.py`
stops after the `A` record and reports `created = 300`, while the full-scan
builder of `proc.py` keeps walking and reports `created = 100`: the two
mappings differ. -/
theorem early_stop_differs_from_full_scan :
    ppResult ["b"] [⟨300, .touch "A" "b"⟩, ⟨100, .touch "M" "b"⟩] "b"
        = some (300, 300) ∧
    procResult ["b"] [⟨300, .touch "A" "b"⟩, ⟨100, .touch "M" "b"⟩] "b"
        = some (100, 300) := by
  refine ⟨by decide, by decide⟩

lemma tfidfPick_spec (K U : Int) :
    ∀ (cands used picked : List String),
      (used.length : Int) ≤ U → (picked.length : Int) < K →
      (∀ t ∈ picked, pyLower t ∈ used) →
      ((tfidfPick K U cands used picked).2.length : Int) ≤ U ∧
      ((tfidfPick K U cands used picked).1.length : Int) ≤ K ∧
      (∀ x ∈ used, x ∈ (tfidfPick K U cands used picked).2) ∧
      (∀ t ∈ (tfidfPick K U cands used picked).1,
        pyLower t ∈ (tfidfPick K U cands used picked).2) ∧
      (∀ t ∈ (tfidfPick K U cands used picked).1,
        t ∈ picked ∨ (t ∈ cands ∧ t ≠ "" ∧ pyLower t ∉ tagStopwords)) := by
  intro cands
  induction cands with
  | nil =>
    intro used picked hu hp hcl
    simp only [tfidfPick]
    exact ⟨hu, le_of_lt hp, fun x hx => hx, hcl, fun t ht => Or.inl ht⟩
  | cons t rest ih =>
    intro used picked hu hp hcl
    simp only [tfidfPick]
    by_cases h1 : t = ""
    · rw [if_pos h1]
      obtain ⟨a, b, c, d, e⟩ := ih used picked hu hp hcl
      exact ⟨a, b, c, d, fun x hx => (e x hx).imp_right
        (fun hr => ⟨List.mem_cons_of_mem t hr.1, hr.2⟩)⟩
    · rw [if_neg h1]
      by_cases h2 : pyLower t ∈ tagStopwords
      · rw [if_pos h2]
        obtain ⟨a, b, c, d, e⟩ := ih used picked hu hp hcl
        exact ⟨a, b, c, d, fun x hx => (e x hx).imp_right
          (fun hr => ⟨List.mem_cons_of_mem t hr.1, hr.2⟩)⟩
      · rw [if_neg h2]
        by_cases h3 : pyLower t ∉ used ∧ (used.length : Int) ≥ U
        · rw [if_pos h3]
          obtain ⟨a, b, c, d, e⟩ := ih used picked hu hp hcl
          exact ⟨a, b, c, d, fun x hx => (e x hx).imp_right
            (fun hr => ⟨List.mem_cons_of_mem t hr.1, hr.2⟩)⟩
        · rw [if_neg h3]
          have husedlen : (((if pyLower t ∈ used then used
              else used ++ [pyLower t]) : List String).length : Int) ≤ U := by
            by_cases hmem : pyLower t ∈ used
            · simpa [hmem] using hu
            · have hlt : (used.length : Int) < U := by
                rcases not_and_or.mp h3 with h | h
                · exact absurd hmem h
                · exact not_le.mp h
              simp only [if_neg hmem, List.length_append, List.length_singleton]
              push_cast
              omega
          have husedsub : ∀ x ∈ used,
              x ∈ (if pyLower t ∈ used then used else used ++ [pyLower t]) := by
            intro x hx
            by_cases hmem : pyLower t ∈ used
            · simpa [hmem] using hx
            · simp only [if_neg hmem]
              exact List.mem_append_left _ hx
          have hlowmem : pyLower t ∈ (if pyLower t ∈ used then used
              else used ++ [pyLower t]) := by
            by_cases hmem : pyLower t ∈ used
            · simp [hmem]
            · simp [hmem]
          have hcl' : ∀ x ∈ picked ++ [t],
              pyLower x ∈ (if pyLower t ∈ used then used else used ++ [pyLower t]) := by
            intro x hx
            rcases List.mem_append.mp hx with hx | hx
            · exact husedsub _ (hcl x hx)
            · have : x = t := by simpa using hx
              rw [this]
              exact hlowmem
          by_cases h4 : (((picked ++ [t]).length : Nat) : Int) ≥ K
          · rw [if_pos h4]
            refine ⟨husedlen, ?_, husedsub, hcl', ?_⟩
            · simp only [List.length_append, List.length_singleton]
              push_cast
              omega
            · intro x hx
              rcases List.mem_append.mp hx with hx | hx
              · exact Or.inl hx
              · have : x = t := by simpa using hx
                rw [this]
                exact Or.inr ⟨List.mem_cons_self t rest, h1, h2⟩
          · rw [if_neg h4]
            have hp' : (((picked ++ [t]).length : Nat) : Int) < K := not_le.mp h4
            obtain ⟨a, b, c, d, e⟩ := ih _ _ husedlen hp' hcl'
            refine ⟨a, b, fun x hx => c x (husedsub x hx), d, ?_⟩
            intro x hx
            rcases e x hx with hx2 | hx2
            · rcases List.mem_append.mp hx2 with hx3 | hx3
              · exact Or.inl hx3
              · have : x = t := by simpa using hx3
                rw [this]
                exact Or.inr ⟨List.mem_cons_self t rest, h1, h2⟩
            · exact Or.inr ⟨List.mem_cons_of_mem t hx2.1, hx2.2⟩

lemma textrankPick_spec (K U : Int) :
    ∀ (cands used picked : List String),
      (used.length : Int) ≤ U → (picked.length : Int) < K →
      (∀ t ∈ picked, pyLower t ∈ used) →
      ((textrankPick K U cands used picked).2.length : Int) ≤ U ∧
      ((textrankPick K U cands used picked).1.length : Int) ≤ K ∧
      (∀ x ∈ used, x ∈ (textrankPick K U cands used picked).2) ∧
      (∀ t ∈ (textrankPick K U cands used picked).1,
        pyLower t ∈ (textrankPick K U cands used picked).2) ∧
      (∀ t ∈ (textrankPick K U cands used picked).1,
        t ∈ picked ∨ (t ≠ "" ∧ pyLower t ∉ tagStopwords)) := by
  intro cands
  induction cands with
  | nil =>
    intro used picked hu hp hcl
    simp only [textrankPick]
    exact ⟨hu, le_of_lt hp, fun x hx => hx, hcl, fun t ht => Or.inl ht⟩
  | cons c rest ih =>
    intro used picked hu hp hcl
    simp only [textrankPick]
    by_cases h1 : pyTrim c = ""
    · rw [if_pos h1]
      exact ih used picked hu hp hcl
    · rw [if_neg h1]
      by_cases h2 : pyLower (pyTrim c) ∈ tagStopwords
      · rw [if_pos h2]
        exact ih used picked hu hp hcl
      · rw [if_neg h2]
        by_cases h3 : pyLower (pyTrim c) ∉ used ∧ (used.length : Int) ≥ U
        · rw [if_pos h3]
          exact ih used picked hu hp hcl
        · rw [if_neg h3]
          have husedlen : (((if pyLower (pyTrim c) ∈ used then used
              else used ++ [pyLower (pyTrim c)]) : List String).length : Int) ≤ U := by
            by_cases hmem : pyLower (pyTrim c) ∈ used
            · simpa [hmem] using hu
            · have hlt : (used.length : Int) < U := by
                rcases not_and_or.mp h3 with h | h
                · exact absurd hmem h
                · exact not_le.mp h
              simp only [if_neg hmem, List.length_append, List.length_singleton]
              push_cast
              omega
          have husedsub : ∀ x ∈ used,
              x ∈ (if pyLower (pyTrim c) ∈ used then used
                else used ++ [pyLower (pyTrim c)]) := by
            intro x hx
            by_cases hmem : pyLower (pyTrim c) ∈ used
            · simpa [hmem] using hx
            · simp only [if_neg hmem]
              exact List.mem_append_left _ hx
          have hlowmem : pyLower (pyTrim c) ∈ (if pyLower (pyTrim c) ∈ used then used
              else used ++ [pyLower (pyTrim c)]) := by
            by_cases hmem : pyLower (pyTrim c) ∈ used
            · simp [hmem]
            · simp [hmem]
          have hcl2 : ∀ x ∈ picked ++ [pyTrim c],
              pyLower x ∈ (if pyLower (pyTrim c) ∈ used then used
                else used ++ [pyLower (pyTrim c)]) := by
            intro x hx
            rcases List.mem_append.mp hx with hx | hx
            · exact husedsub _ (hcl x hx)
            · have : x = pyTrim c := by simpa using hx
              rw [this]
              exact hlowmem
          by_cases h4 : (((picked ++ [pyTrim c]).length : Nat) : Int) ≥ K
          · rw [if_pos h4]
            refine ⟨husedlen, ?_, husedsub, hcl2, ?_⟩
            · simp only [List.length_append, List.length_singleton]
              push_cast
              omega
            · intro x hx
              rcases List.mem_append.mp hx with hx | hx
              · exact Or.inl hx
              · have : x = pyTrim c := by simpa using hx
                rw [this]
                exact Or.inr ⟨h1, h2⟩
          · rw [if_neg h4]
            have hp2 : (((picked ++ [pyTrim c]).length : Nat) : Int) < K := not_le.mp h4
            obtain ⟨a, b, csub, d, e⟩ := ih _ _ husedlen hp2 hcl2
            refine ⟨a, b, fun x hx => csub x (husedsub x hx), d, ?_⟩
            intro x hx
            rcases e x hx with hx2 | hx2
            · rcases List.mem_append.mp hx2 with hx3 | hx3
              · exact Or.inl hx3
              · have : x = pyTrim c := by simpa using hx3
                rw [this]
                exact Or.inr ⟨h1, h2⟩
            · exact Or.inr hx2

lemma keybertPick_spec (K U : Int) :
    ∀ (cands used picked seen : List String),
      (used.length : Int) ≤ U → (picked.length : Int) < K →
      (∀ t ∈ picked, pyLower t ∈ used) →
      ((keybertPick K U cands used picked seen).2.length : Int) ≤ U ∧
      ((keybertPick K U cands used picked seen).1.length : Int) ≤ K ∧
      (∀ x ∈ used, x ∈ (keybertPick K U cands used picked seen).2) ∧
      (∀ t ∈ (keybertPick K U cands used picked seen).1,
        pyLower t ∈ (keybertPick K U cands used picked seen).2) ∧
      (∀ t ∈ (keybertPick K U cands used picked seen).1,
        t ∈ picked ∨ (t ≠ "" ∧ 2 ≤ t.length ∧ pyIsDigit t = false ∧
          pyContains t '/' = false ∧ pyContains t '\\' = false ∧
          pyLower t ∉ tagStopwords)) := by
  intro cands
  induction cands with
  | nil =>
    intro used picked seen hu hp hcl
    simp only [keybertPick]
    exact ⟨hu, le_of_lt hp, fun x hx => hx, hcl, fun t ht => Or.inl ht⟩
  | cons c rest ih =>
    intro used picked seen hu hp hcl
    simp only [keybertPick]
    by_cases h1 : pyTrim c = ""
    · rw [if_pos h1]
      exact ih used picked seen hu hp hcl
    · rw [if_neg h1]
      by_cases hsp : pyHasSpace (pyTrim c) = true
      · rw [if_pos hsp]
        exact ih used picked seen hu hp hcl
      · rw [if_neg hsp]
        by_cases h2 : pyLower (pyTrim c) ∈ tagStopwords
        · rw [if_pos h2]
          exact ih used picked seen hu hp hcl
        · rw [if_neg h2]
          by_cases hsn : pyLower (pyTrim c) ∈ seen
          · rw [if_pos hsn]
            exact ih used picked seen hu hp hcl
          · rw [if_neg hsn]
            by_cases hln : (pyTrim c).length < 2
            · rw [if_pos hln]
              exact ih used picked seen hu hp hcl
            · rw [if_neg hln]
              by_cases hdg : pyIsDigit (pyTrim c) = true
              · rw [if_pos hdg]
                exact ih used picked seen hu hp hcl
              · rw [if_neg hdg]
                by_cases hct : pyContains (pyTrim c) '/' = true ∨
                    pyContains (pyTrim c) '\\' = true
                · rw [if_pos hct]
                  exact ih used picked seen hu hp hcl
                · rw [if_neg hct]
                  by_cases h3 : pyLower (pyTrim c) ∉ used ∧ (used.length : Int) ≥ U
                  · rw [if_pos h3]
                    exact ih used picked seen hu hp hcl
                  · rw [if_neg h3]
                    have hgood : pyTrim c ≠ "" ∧ 2 ≤ (pyTrim c).length ∧
                        pyIsDigit (pyTrim c) = false ∧
                        pyContains (pyTrim c) '/' = false ∧
                        pyContains (pyTrim c) '\\' = false ∧
                        pyLower (pyTrim c) ∉ tagStopwords := by
                      refine ⟨h1, not_lt.mp hln, ?_, ?_, ?_, h2⟩
                      · exact Bool.eq_false_iff.mpr hdg
                      · exact Bool.eq_false_iff.mpr (not_or.mp hct).1
                      · exact Bool.eq_false_iff.mpr (not_or.mp hct).2
                    have husedlen : (((if pyLower (pyTrim c) ∈ used then used
                        else used ++ [pyLower (pyTrim c)]) : List String).length : Int) ≤ U := by
                      by_cases hmem : pyLower (pyTrim c) ∈ used
                      · simpa [hmem] using hu
                      · have hlt : (used.length : Int) < U := by
                          rcases not_and_or.mp h3 with h | h
                          · exact absurd hmem h
                          · exact not_le.mp h
                        simp only [if_neg hmem, List.length_append, List.length_singleton]
                        push_cast
                        omega
                    have husedsub : ∀ x ∈ used,
                        x ∈ (if pyLower (pyTrim c) ∈ used then used
                          else used ++ [pyLower (pyTrim c)]) := by
                      intro x hx
                      by_cases hmem : pyLower (pyTrim c) ∈ used
                      · simpa [hmem] using hx
                      · simp only [if_neg hmem]
                        exact List.mem_append_left _ hx
                    have hlowmem : pyLower (pyTrim c) ∈
                        (if pyLower (pyTrim c) ∈ used then used
                          else used ++ [pyLower (pyTrim c)]) := by
                      by_cases hmem : pyLower (pyTrim c) ∈ used
                      · simp [hmem]
                      · simp [hmem]
                    have hcl2 : ∀ x ∈ picked ++ [pyTrim c],
                        pyLower x ∈ (if pyLower (pyTrim c) ∈ used then used
                          else used ++ [pyLower (pyTrim c)]) := by
                      intro x hx
                      rcases List.mem_append.mp hx with hx | hx
                      · exact husedsub _ (hcl x hx)
                      · have : x = pyTrim c := by simpa using hx
                        rw [this]
                        exact hlowmem
                    by_cases h4 : (((picked ++ [pyTrim c]).length : Nat) : Int) ≥ K
                    · rw [if_pos h4]
                      refine ⟨husedlen, ?_, husedsub, hcl2, ?_⟩
                      · simp only [List.length_append, List.length_singleton]
                        push_cast
                        omega
                      · intro x hx
                        rcases List.mem_append.mp hx with hx | hx
                        · exact Or.inl hx
                        · have : x = pyTrim c := by simpa using hx
                          rw [this]
                          exact Or.inr hgood
                    · rw [if_neg h4]
                      have hp2 : (((picked ++ [pyTrim c]).length : Nat) : Int) < K :=
                        not_le.mp h4
                      obtain ⟨a, b, csub, d, e⟩ := ih _ _ _ husedlen hp2 hcl2
                      refine ⟨a, b, fun x hx => csub x (husedsub x hx), d, ?_⟩
                      intro x hx
                      rcases e x hx with hx2 | hx2
                      · rcases List.mem_append.mp hx2 with hx3 | hx3
                        · exact Or.inl hx3
                        · have : x = pyTrim c := by simpa using hx3
                          rw [this]
                          exact Or.inr hgood
                      · exact Or.inr hx2

lemma tfidfGo_spec (K U : Int) (hK : 0 < K) :
    ∀ (docs : List SrcDoc) (used : List String),
      (used.length : Int) ≤ U →
      ((tfidfGo K U docs used).2.length : Int) ≤ U ∧
      (∀ x ∈ used, x ∈ (tfidfGo K U docs used).2) ∧
      (∀ q ∈ (tfidfGo K U docs used).1, (q.2.length : Int) ≤ K) ∧
      (∀ q ∈ (tfidfGo K U docs used).1, ∀ t ∈ q.2,
        pyLower t ∈ (tfidfGo K U docs used).2) ∧
      (∀ q ∈ (tfidfGo K U docs used).1, ∀ t ∈ q.2,
        (∃ d ∈ docs, t ∈ d.cands) ∧ t ≠ "" ∧ pyLower t ∉ tagStopwords) := by
  intro docs
  induction docs with
  | nil =>
    intro used hu
    simp only [tfidfGo]
    exact ⟨hu, fun x hx => hx, fun q hq => absurd hq (List.not_mem_nil q),
      fun q hq => absurd hq (List.not_mem_nil q),
      fun q hq => absurd hq (List.not_mem_nil q)⟩
  | cons d rest ih =>
    intro used hu
    obtain ⟨pu, pk, psub, pcl, pprov⟩ :=
      tfidfPick_spec K U (d.cands.take (max 30 (K * 10)).toNat) used []
        hu (by simpa using hK) (by intro t ht; cases ht)
    obtain ⟨a, asub, b, ccl, e⟩ := ih _ pu
    simp only [tfidfGo]
    refine ⟨a, ?_, ?_, ?_, ?_⟩
    · intro x hx
      exact asub x (psub x hx)
    · intro q hq
      rcases List.mem_cons.mp hq with hq | hq
      · rw [hq]
        exact pk
      · exact b q hq
    · intro q hq t ht
      rcases List.mem_cons.mp hq with hq | hq
      · rw [hq] at ht
        exact asub _ (pcl t ht)
      · exact ccl q hq t ht
    · intro q hq t ht
      rcases List.mem_cons.mp hq with hq | hq
      · rw [hq] at ht
        rcases pprov t ht with h | h
        · cases h
        · exact ⟨⟨d, List.mem_cons_self d rest, List.take_subset _ _ h.1⟩, h.2.1, h.2.2⟩
      · obtain ⟨⟨d2, hd2, htc⟩, hne, hst⟩ := e q hq t ht
        exact ⟨⟨d2, List.mem_cons_of_mem d hd2, htc⟩, hne, hst⟩

lemma textrankGo_spec (K U : Int) (hK : 0 < K) :
    ∀ (docs : List SrcDoc) (used : List String),
      (used.length : Int) ≤ U →
      ((textrankGo K U docs used).2.length : Int) ≤ U ∧
      (∀ x ∈ used, x ∈ (textrankGo K U docs used).2) ∧
      (∀ q ∈ (textrankGo K U docs used).1, (q.2.length : Int) ≤ K) ∧
      (∀ q ∈ (textrankGo K U docs used).1, ∀ t ∈ q.2,
        pyLower t ∈ (textrankGo K U docs used).2) ∧
      (∀ q ∈ (textrankGo K U docs used).1, ∀ t ∈ q.2,
        t ≠ "" ∧ pyLower t ∉ tagStopwords) := by
  intro docs
  induction docs with
  | nil =>
    intro used hu
    simp only [textrankGo]
    exact ⟨hu, fun x hx => hx, fun q hq => absurd hq (List.not_mem_nil q),
      fun q hq => absurd hq (List.not_mem_nil q),
      fun q hq => absurd hq (List.not_mem_nil q)⟩
  | cons d rest ih =>
    intro used hu
    simp only [textrankGo]
    by_cases hemp : jiebaTokenize false d.rawCut = []
    · rw [if_pos hemp]
      obtain ⟨a, asub, b, ccl, e⟩ := ih used hu
      refine ⟨a, asub, ?_, ?_, ?_⟩
      · intro q hq
        rcases List.mem_cons.mp hq with hq | hq
        · rw [hq]
          simpa using hK.le
        · exact b q hq
      · intro q hq t ht
        rcases List.mem_cons.mp hq with hq | hq
        · rw [hq] at ht
          cases ht
        · exact ccl q hq t ht
      · intro q hq t ht
        rcases List.mem_cons.mp hq with hq | hq
        · rw [hq] at ht
          cases ht
        · exact e q hq t ht
    · rw [if_neg hemp]
      obtain ⟨pu, pk, psub, pcl, pprov⟩ :=
        textrankPick_spec K U d.cands used []
          hu (by simpa using hK) (by intro t ht; cases ht)
      obtain ⟨a, asub, b, ccl, e⟩ := ih _ pu
      refine ⟨a, ?_, ?_, ?_, ?_⟩
      · intro x hx
        exact asub x (psub x hx)
      · intro q hq
        rcases List.mem_cons.mp hq with hq | hq
        · rw [hq]
          exact pk
        · exact b q hq
      · intro q hq t ht
        rcases List.mem_cons.mp hq with hq | hq
        · rw [hq] at ht
          exact asub _ (pcl t ht)
        · exact ccl q hq t ht
      · intro q hq t ht
        rcases List.mem_cons.mp hq with hq | hq
        · rw [hq] at ht
          rcases pprov t ht with h | h
          · cases h
          · exact h
        · exact e q hq t ht

lemma keybertGo_spec (K U : Int) (hK : 0 < K) :
    ∀ (docs : List SrcDoc) (used : List String),
      (used.length : Int) ≤ U →
      ((keybertGo K U docs used).2.length : Int) ≤ U ∧
      (∀ x ∈ used, x ∈ (keybertGo K U docs used).2) ∧
      (∀ q ∈ (keybertGo K U docs used).1, (q.2.length : Int) ≤ K) ∧
      (∀ q ∈ (keybertGo K U docs used).1, ∀ t ∈ q.2,
        pyLower t ∈ (keybertGo K U docs used).2) ∧
      (∀ q ∈ (keybertGo K U docs used).1, ∀ t ∈ q.2,
        t ≠ "" ∧ 2 ≤ t.length ∧ pyIsDigit t = false ∧
          pyContains t '/' = false ∧ pyContains t '\\' = false ∧
          pyLower t ∉ tagStopwords) := by
  intro docs
  induction docs with
  | nil =>
    intro used hu
    simp only [keybertGo]
    exact ⟨hu, fun x hx => hx, fun q hq => absurd hq (List.not_mem_nil q),
      fun q hq => absurd hq (List.not_mem_nil q),
      fun q hq => absurd hq (List.not_mem_nil q)⟩
  | cons d rest ih =>
    intro used hu
    simp only [keybertGo]
    by_cases hemp : jiebaTokenize false d.rawCut = []
    · rw [if_pos hemp]
      obtain ⟨a, asub, b, ccl, e⟩ := ih used hu
      refine ⟨a, asub, ?_, ?_, ?_⟩
      · intro q hq
        rcases List.mem_cons.mp hq with hq | hq
        · rw [hq]
          simpa using hK.le
        · exact b q hq
      · intro q hq t ht
        rcases List.mem_cons.mp hq with hq | hq
        · rw [hq] at ht
          cases ht
        · exact ccl q hq t ht
      · intro q hq t ht
        rcases List.mem_cons.mp hq with hq | hq
        · rw [hq] at ht
          cases ht
        · exact e q hq t ht
    · rw [if_neg hemp]
      obtain ⟨pu, pk, psub, pcl, pprov⟩ :=
        keybertPick_spec K U d.cands used [] []
          hu (by simpa using hK) (by intro t ht; cases ht)
      obtain ⟨a, asub, b, ccl, e⟩ := ih _ pu
      refine ⟨a, ?_, ?_, ?_, ?_⟩
      · intro x hx
        exact asub x (psub x hx)
      · intro q hq
        rcases List.mem_cons.mp hq with hq | hq
        · rw [hq]
          exact pk
        · exact b q hq
      · intro q hq t ht
        rcases List.mem_cons.mp hq with hq | hq
        · rw [hq] at ht
          exact asub _ (pcl t ht)
        · exact ccl q hq t ht
      · intro q hq t ht
        rcases List.mem_cons.mp hq with hq | hq
        · rw [hq] at ht
          rcases pprov t ht with h | h
          · cases h
          · exact h
        · exact e q hq t ht

lemma lowerAssigned_card_le {U : Int} {out : List (String × List String)}
    {usedF : List String}
    (hcl : ∀ q ∈ out, ∀ t ∈ q.2, pyLower t ∈ usedF)
    (hlen : (usedF.length : Int) ≤ U) :
    ((lowerAssigned out).toFinset.card : Int) ≤ U := by
  have hsub : (lowerAssigned out).toFinset ⊆ usedF.toFinset := by
    intro x hx
    rw [List.mem_toFinset] at hx
    rw [List.mem_toFinset]
    unfold lowerAssigned at hx
    rw [List.mem_map] at hx
    obtain ⟨t, ht, rfl⟩ := hx
    rw [List.mem_flatten] at ht
    obtain ⟨l, hl, htl⟩ := ht
    rw [List.mem_map] at hl
    obtain ⟨q, hq, rfl⟩ := hl
    exact hcl q hq t htl
  calc ((lowerAssigned out).toFinset.card : Int)
      ≤ (usedF.toFinset.card : Int) := by exact_mod_cast Finset.card_le_card hsub
    _ ≤ (usedF.length : Int) := by exact_mod_cast List.toFinset_card_le usedF
    _ ≤ U := hlen

/-- C4: for every input and every `perDocumentTagCount` and nonnegative
`globalUniqueTagBudget`, each of the three tag-index builders keeps the set of
distinct lower-cased assigned terms within the global budget `U` and every
document's assigned list within length `K`. -/
theorem tag_budget_invariants (docs : List SrcDoc) (K U : Int) (hU : 0 ≤ U) :
    ((∀ q ∈ buildTfidfTagIndex docs K U, (q.2.length : Int) ≤ K) ∧
      ((lowerAssigned (buildTfidfTagIndex docs K U)).toFinset.card : Int) ≤ U) ∧
    ((∀ q ∈ buildTextrankTagIndex docs K U, (q.2.length : Int) ≤ K) ∧
      ((lowerAssigned (buildTextrankTagIndex docs K U)).toFinset.card : Int) ≤ U) ∧
    ((∀ q ∈ buildKeybertTagIndex docs K U, (q.2.length : Int) ≤ K) ∧
      ((lowerAssigned (buildKeybertTagIndex docs K U)).toFinset.card : Int) ≤ U) := by
  by_cases hempty : K ≤ 0 ∨ docs = []
  · rw [buildTfidfTagIndex, buildTextrankTagIndex, buildKeybertTagIndex,
      if_pos hempty, if_pos hempty, if_pos hempty]
    refine ⟨⟨?_, ?_⟩, ⟨?_, ?_⟩, ⟨?_, ?_⟩⟩ <;>
      first
        | exact fun q hq => absurd hq (List.not_mem_nil q)
        | simpa [lowerAssigned] using hU
  · have hK : 0 < K := not_le.mp (not_or.mp hempty).1
    rw [buildTfidfTagIndex, buildTextrankTagIndex, buildKeybertTagIndex,
      if_neg hempty, if_neg hempty, if_neg hempty]
    have hinit : (([] : List String).length : Int) ≤ U := by simpa using hU
    obtain ⟨ta, _, tb, tc, _⟩ := tfidfGo_spec K U hK docs [] hinit
    obtain ⟨ra, _, rb, rc, _⟩ := textrankGo_spec K U hK docs [] hinit
    obtain ⟨ka, _, kb, kc, _⟩ := keybertGo_spec K U hK docs [] hinit
    exact ⟨⟨tb, lowerAssigned_card_le tc ta⟩,
      ⟨rb, lowerAssigned_card_le rc ra⟩,
      ⟨kb, lowerAssigned_card_le kc ka⟩⟩

theorem tag_budget_invariants_witness :
    ((∀ q ∈ buildTfidfTagIndex [⟨"D1", ["go"], ["go", "rust"]⟩] 1 1,
        (q.2.length : Int) ≤ 1) ∧
      ((lowerAssigned (buildTfidfTagIndex [⟨"D1", ["go"], ["go", "rust"]⟩] 1 1)).toFinset.card :
        Int) ≤ 1) ∧
    ((∀ q ∈ buildTextrankTagIndex [⟨"D1", ["go"], ["go", "rust"]⟩] 1 1,
        (q.2.length : Int) ≤ 1) ∧
      ((lowerAssigned (buildTextrankTagIndex [⟨"D1", ["go"], ["go", "rust"]⟩] 1 1)).toFinset.card :
        Int) ≤ 1) ∧
    ((∀ q ∈ buildKeybertTagIndex [⟨"D1", ["go"], ["go", "rust"]⟩] 1 1,
        (q.2.length : Int) ≤ 1) ∧
      ((lowerAssigned (buildKeybertTagIndex [⟨"D1", ["go"], ["go", "rust"]⟩] 1 1)).toFinset.card :
        Int) ≤ 1) :=
  tag_budget_invariants [⟨"D1", ["go"], ["go", "rust"]⟩] 1 1 (by decide)

lemma jiebaFilter_good (dedupe : Bool) :
    ∀ (raw seen : List String), ∀ t ∈ jiebaFilter dedupe raw seen,
      t ≠ "" ∧ 2 ≤ t.length ∧ pyIsDigit t = false ∧
        pyContains t '/' = false ∧ pyContains t '\\' = false ∧
        pyLower t ∉ tagStopwords := by
  intro raw
  induction raw with
  | nil =>
    intro seen t ht
    cases ht
  | cons c rest ih =>
    intro seen t ht
    simp only [jiebaFilter] at ht
    by_cases h1 : pyTrim c = ""
    · rw [if_pos h1] at ht
      exact ih seen t ht
    · rw [if_neg h1] at ht
      by_cases h2 : pyLower (pyTrim c) ∈ tagStopwords
      · rw [if_pos h2] at ht
        exact ih seen t ht
      · rw [if_neg h2] at ht
        by_cases h3 : dedupe = true ∧ pyLower (pyTrim c) ∈ seen
        · rw [if_pos h3] at ht
          exact ih seen t ht
        · rw [if_neg h3] at ht
          by_cases h4 : (pyTrim c).length < 2
          · rw [if_pos h4] at ht
            exact ih seen t ht
          · rw [if_neg h4] at ht
            by_cases h5 : pyIsDigit (pyTrim c) = true
            · rw [if_pos h5] at ht
              exact ih seen t ht
            · rw [if_neg h5] at ht
              by_cases h6 : pyContains (pyTrim c) '/' = true ∨
                  pyContains (pyTrim c) '\\' = true
              · rw [if_pos h6] at ht
                exact ih seen t ht
              · rw [if_neg h6] at ht
                rcases List.mem_cons.mp ht with h | h
                · subst h
                  exact ⟨h1, not_lt.mp h4, Bool.eq_false_iff.mpr h5,
                    Bool.eq_false_iff.mpr (not_or.mp h6).1,
                    Bool.eq_false_iff.mpr (not_or.mp h6).2, h2⟩
                · exact ih _ t h

lemma tfidfPick_prov (K U : Int) :
    ∀ (cands used picked : List String), ∀ t ∈ (tfidfPick K U cands used picked).1,
      t ∈ picked ∨ (t ∈ cands ∧ t ≠ "" ∧ pyLower t ∉ tagStopwords) := by
  intro cands
  induction cands with
  | nil =>
    intro used picked t ht
    exact Or.inl ht
  | cons c rest ih =>
    intro used picked t ht
    simp only [tfidfPick] at ht
    by_cases h1 : c = ""
    · rw [if_pos h1] at ht
      exact (ih used picked t ht).imp_right
        (fun hr => ⟨List.mem_cons_of_mem c hr.1, hr.2⟩)
    · rw [if_neg h1] at ht
      by_cases h2 : pyLower c ∈ tagStopwords
      · rw [if_pos h2] at ht
        exact (ih used picked t ht).imp_right
          (fun hr => ⟨List.mem_cons_of_mem c hr.1, hr.2⟩)
      · rw [if_neg h2] at ht
        by_cases h3 : pyLower c ∉ used ∧ (used.length : Int) ≥ U
        · rw [if_pos h3] at ht
          exact (ih used picked t ht).imp_right
            (fun hr => ⟨List.mem_cons_of_mem c hr.1, hr.2⟩)
        · rw [if_neg h3] at ht
          by_cases h4 : (((picked ++ [c]).length : Nat) : Int) ≥ K
          · rw [if_pos h4] at ht
            rcases List.mem_append.mp ht with hx | hx
            · exact Or.inl hx
            · have : t = c := by simpa using hx
              rw [this]
              exact Or.inr ⟨List.mem_cons_self c rest, h1, h2⟩
          · rw [if_neg h4] at ht
            rcases ih _ _ t ht with hx | hx
            · rcases List.mem_append.mp hx with hy | hy
              · exact Or.inl hy
              · have : t = c := by simpa using hy
                rw [this]
                exact Or.inr ⟨List.mem_cons_self c rest, h1, h2⟩
            · exact Or.inr ⟨List.mem_cons_of_mem c hx.1, hx.2⟩

lemma textrankPick_prov (K U : Int) :
    ∀ (cands used picked : List String), ∀ t ∈ (textrankPick K U cands used picked).1,
      t ∈ picked ∨ (t ≠ "" ∧ pyLower t ∉ tagStopwords) := by
  intro cands
  induction cands with
  | nil =>
    intro used picked t ht
    exact Or.inl ht
  | cons c rest ih =>
    intro used picked t ht
    simp only [textrankPick] at ht
    by_cases h1 : pyTrim c = ""
    · rw [if_pos h1] at ht
      exact ih used picked t ht
    · rw [if_neg h1] at ht
      by_cases h2 : pyLower (pyTrim c) ∈ tagStopwords
      · rw [if_pos h2] at ht
        exact ih used picked t ht
      · rw [if_neg h2] at ht
        by_cases h3 : pyLower (pyTrim c) ∉ used ∧ (used.length : Int) ≥ U
        · rw [if_pos h3] at ht
          exact ih used picked t ht
        · rw [if_neg h3] at ht
          by_cases h4 : (((picked ++ [pyTrim c]).length : Nat) : Int) ≥ K
          · rw [if_pos h4] at ht
            rcases List.mem_append.mp ht with hx | hx
            · exact Or.inl hx
            · have : t = pyTrim c := by simpa using hx
              rw [this]
              exact Or.inr ⟨h1, h2⟩
          · rw [if_neg h4] at ht
            rcases ih _ _ t ht with hx | hx
            · rcases List.mem_append.mp hx with hy | hy
              · exact Or.inl hy
              · have : t = pyTrim c := by simpa using hy
                rw [this]
                exact Or.inr ⟨h1, h2⟩
            · exact Or.inr hx

lemma keybertPick_prov (K U : Int) :
    ∀ (cands used picked seen : List String),
      ∀ t ∈ (keybertPick K U cands used picked seen).1,
      t ∈ picked ∨ (t ≠ "" ∧ 2 ≤ t.length ∧ pyIsDigit t = false ∧
        pyContains t '/' = false ∧ pyContains t '\\' = false ∧
        pyLower t ∉ tagStopwords) := by
  intro cands
  induction cands with
  | nil =>
    intro used picked seen t ht
    exact Or.inl ht
  | cons c rest ih =>
    intro used picked seen t ht
    simp only [keybertPick] at ht
    by_cases h1 : pyTrim c = ""
    · rw [if_pos h1] at ht
      exact ih used picked seen t ht
    · rw [if_neg h1] at ht
      by_cases hsp : pyHasSpace (pyTrim c) = true
      · rw [if_pos hsp] at ht
        exact ih used picked seen t ht
      · rw [if_neg hsp] at ht
        by_cases h2 : pyLower (pyTrim c) ∈ tagStopwords
        · rw [if_pos h2] at ht
          exact ih used picked seen t ht
        · rw [if_neg h2] at ht
          by_cases hsn : pyLower (pyTrim c) ∈ seen
          · rw [if_pos hsn] at ht
            exact ih used picked seen t ht
          · rw [if_neg hsn] at ht
            by_cases hln : (pyTrim c).length < 2
            · rw [if_pos hln] at ht
              exact ih used picked seen t ht
            · rw [if_neg hln] at ht
              by_cases hdg : pyIsDigit (pyTrim c) = true
              · rw [if_pos hdg] at ht
                exact ih used picked seen t ht
              · rw [if_neg hdg] at ht
                by_cases hct : pyContains (pyTrim c) '/' = true ∨
                    pyContains (pyTrim c) '\\' = true
                · rw [if_pos hct] at ht
                  exact ih used picked seen t ht
                · rw [if_neg hct] at ht
                  have hgood : pyTrim c ≠ "" ∧ 2 ≤ (pyTrim c).length ∧
                      pyIsDigit (pyTrim c) = false ∧
                      pyContains (pyTrim c) '/' = false ∧
                      pyContains (pyTrim c) '\\' = false ∧
                      pyLower (pyTrim c) ∉ tagStopwords :=
                    ⟨h1, not_lt.mp hln, Bool.eq_false_iff.mpr hdg,
                      Bool.eq_false_iff.mpr (not_or.mp hct).1,
                      Bool.eq_false_iff.mpr (not_or.mp hct).2, h2⟩
                  by_cases h3 : pyLower (pyTrim c) ∉ used ∧ (used.length : Int) ≥ U
                  · rw [if_pos h3] at ht
                    exact ih used picked seen t ht
                  · rw [if_neg h3] at ht
                    by_cases h4 : (((picked ++ [pyTrim c]).length : Nat) : Int) ≥ K
                    · rw [if_pos h4] at ht
                      rcases List.mem_append.mp ht with hx | hx
                      · exact Or.inl hx
                      · have : t = pyTrim c := by simpa using hx
                        rw [this]
                        exact Or.inr hgood
                    · rw [if_neg h4] at ht
                      rcases ih _ _ _ t ht with hx | hx
                      · rcases List.mem_append.mp hx with hy | hy
                        · exact Or.inl hy
                        · have : t = pyTrim c := by simpa using hy
                          rw [this]
                          exact Or.inr hgood
                      · exact Or.inr hx

lemma tfidfGo_prov (K U : Int) :
    ∀ (docs : List SrcDoc) (used : List String),
      ∀ q ∈ (tfidfGo K U docs used).1, ∀ t ∈ q.2,
      (∃ d ∈ docs, t ∈ d.cands) ∧ t ≠ "" ∧ pyLower t ∉ tagStopwords := by
  intro docs
  induction docs with
  | nil =>
    intro used q hq
    cases hq
  | cons d rest ih =>
    intro used q hq t ht
    simp only [tfidfGo] at hq
    rcases List.mem_cons.mp hq with hq | hq
    · rw [hq] at ht
      rcases tfidfPick_prov K U _ used [] t ht with h | h
      · cases h
      · exact ⟨⟨d, List.mem_cons_self d rest, List.take_subset _ _ h.1⟩, h.2.1, h.2.2⟩
    · obtain ⟨⟨d2, hd2, htc⟩, hne, hst⟩ := ih _ q hq t ht
      exact ⟨⟨d2, List.mem_cons_of_mem d hd2, htc⟩, hne, hst⟩

lemma textrankGo_prov (K U : Int) :
    ∀ (docs : List SrcDoc) (used : List String),
      ∀ q ∈ (textrankGo K U docs used).1, ∀ t ∈ q.2,
      t ≠ "" ∧ pyLower t ∉ tagStopwords := by
  intro docs
  induction docs with
  | nil =>
    intro used q hq
    cases hq
  | cons d rest ih =>
    intro used q hq t ht
    simp only [textrankGo] at hq
    by_cases hemp : jiebaTokenize false d.rawCut = []
    · rw [if_pos hemp] at hq
      rcases List.mem_cons.mp hq with hq | hq
      · rw [hq] at ht
        cases ht
      · exact ih _ q hq t ht
    · rw [if_neg hemp] at hq
      rcases List.mem_cons.mp hq with hq | hq
      · rw [hq] at ht
        rcases textrankPick_prov K U d.cands used [] t ht with h | h
        · cases h
        · exact h
      · exact ih _ q hq t ht

lemma keybertGo_prov (K U : Int) :
    ∀ (docs : List SrcDoc) (used : List String),
      ∀ q ∈ (keybertGo K U docs used).1, ∀ t ∈ q.2,
      t ≠ "" ∧ 2 ≤ t.length ∧ pyIsDigit t = false ∧
        pyContains t '/' = false ∧ pyContains t '\\' = false ∧
        pyLower t ∉ tagStopwords := by
  intro docs
  induction docs with
  | nil =>
    intro used q hq
    cases hq
  | cons d rest ih =>
    intro used q hq t ht
    simp only [keybertGo] at hq
    by_cases hemp : jiebaTokenize false d.rawCut = []
    · rw [if_pos hemp] at hq
      rcases List.mem_cons.mp hq with hq | hq
      · rw [hq] at ht
        cases ht
      · exact ih _ q hq t ht
    · rw [if_neg hemp] at hq
      rcases List.mem_cons.mp hq with hq | hq
      · rw [hq] at ht
        rcases keybertPick_prov K U d.cands used [] [] t ht with h | h
        · cases h
        · exact h
      · exact ih _ q hq t ht

/-- C6 (amended): the keybert builder never assigns a candidate term that is
empty, shorter than two characters, purely numeric, path-like or a stopword —
unconditionally, whatever candidate list the extraction library produced; the
tfidf builder has the same guarantee whenever its candidate vocabulary is
drawn from the filtered `_jieba_tokenize` output, which is how `proc.py`
feeds the vectorizer (that provenance condition scopes only the tfidf
conjunct); the textrank builder, whose pick loop has none of the
short/numeric/path-like checks, only guarantees — again for arbitrary
candidates — that assigned terms are nonempty and not stopwords. -/
theorem tag_filtering_by_strategy (docs : List SrcDoc) (K U : Int) :
    (∀ q ∈ buildKeybertTagIndex docs K U, ∀ t ∈ q.2,
      t ≠ "" ∧ 2 ≤ t.length ∧ pyIsDigit t = false ∧
        pyContains t '/' = false ∧ pyContains t '\\' = false ∧
        pyLower t ∉ tagStopwords) ∧
    ((∀ d ∈ docs, ∀ t ∈ d.cands, ∃ d2 ∈ docs, t ∈ jiebaTokenize true d2.rawCut) →
      ∀ q ∈ buildTfidfTagIndex docs K U, ∀ t ∈ q.2,
        t ≠ "" ∧ 2 ≤ t.length ∧ pyIsDigit t = false ∧
          pyContains t '/' = false ∧ pyContains t '\\' = false ∧
          pyLower t ∉ tagStopwords) ∧
    (∀ q ∈ buildTextrankTagIndex docs K U, ∀ t ∈ q.2,
      t ≠ "" ∧ pyLower t ∉ tagStopwords) := by
  by_cases hempty : K ≤ 0 ∨ docs = []
  · rw [buildTfidfTagIndex, buildTextrankTagIndex, buildKeybertTagIndex,
      if_pos hempty, if_pos hempty, if_pos hempty]
    exact ⟨fun q hq => absurd hq (List.not_mem_nil q),
      fun _ q hq => absurd hq (List.not_mem_nil q),
      fun q hq => absurd hq (List.not_mem_nil q)⟩
  · rw [buildTfidfTagIndex, buildTextrankTagIndex, buildKeybertTagIndex,
      if_neg hempty, if_neg hempty, if_neg hempty]
    refine ⟨?_, ?_, ?_⟩
    · intro q hq t ht
      exact keybertGo_prov K U docs [] q hq t ht
    · intro hcand q hq t ht
      obtain ⟨⟨d2, hd2, htc⟩, hne, hstop⟩ := tfidfGo_prov K U docs [] q hq t ht
      obtain ⟨d3, hd3, htok⟩ := hcand d2 hd2 t htc
      exact jiebaFilter_good true d3.rawCut [] t htok
    · intro q hq t ht
      exact textrankGo_prov K U docs [] q hq t ht

theorem tag_filtering_by_strategy_witness :
    (∀ q ∈ buildKeybertTagIndex [⟨"D1", ["golang"], ["123", "a/b", "golang"]⟩] 2 5,
      ∀ t ∈ q.2,
      t ≠ "" ∧ 2 ≤ t.length ∧ pyIsDigit t = false ∧
        pyContains t '/' = false ∧ pyContains t '\\' = false ∧
        pyLower t ∉ tagStopwords) ∧
    (∀ q ∈ buildTfidfTagIndex [⟨"D1", ["golang"], ["golang"]⟩] 1 5, ∀ t ∈ q.2,
      t ≠ "" ∧ 2 ≤ t.length ∧ pyIsDigit t = false ∧
        pyContains t '/' = false ∧ pyContains t '\\' = false ∧
        pyLower t ∉ tagStopwords) ∧
    (∀ q ∈ buildTextrankTagIndex [⟨"D1", ["golang"], ["golang"]⟩] 1 5, ∀ t ∈ q.2,
      t ≠ "" ∧ pyLower t ∉ tagStopwords) :=
  ⟨(tag_filtering_by_strategy [⟨"D1", ["golang"], ["123", "a/b", "golang"]⟩] 2 5).1,
    (tag_filtering_by_strategy [⟨"D1", ["golang"], ["golang"]⟩] 1 5).2.1 (by decide),
    (tag_filtering_by_strategy [⟨"D1", ["golang"], ["golang"]⟩] 1 5).2.2⟩

/-- C6 (counterexample): the textrank pick loop of `proc.py` applies no
short/numeric/path-like filtering to the library's candidates, so the purely
numeric candidate `"123"` is assigned as a tag. -/
theorem textrank_numeric_tag_example :
    buildTextrankTagIndex [⟨"d", ["xx"], ["123"]⟩] 1 10 = [("d", ["123"])] ∧
    pyIsDigit "123" = true := by
  refine ⟨by decide, by decide⟩

lemma resolveFinal_nil (fuel : Nat) (name : String) :
    resolveFinal [] fuel name = (name, []) := by
  cases fuel <;> rfl

lemma isBreakRec_done {interest : List String} {st : PPState} {r : GitRecord}
    (h : isBreakRec interest st r = true) :
    (ppStep interest st r).done.length = interest.length := by
  unfold isBreakRec at h
  split at h
  · simp only [Bool.and_eq_true, beq_iff_eq, decide_eq_true_eq] at h
    exact h.2
  · cases h

lemma ppStep_touch_nil {interest : List String} {st : PPState} {r : GitRecord}
    {status q : String} (hba : st.backAlias = []) (hev : r.ev = GitEv.touch status q) :
    ppStep interest st r =
      if q ∈ interest then
        { st with
          updated := dsetdefault st.updated q r.ts
          created := dupd st.created q r.ts
          done := if status = "A" then (if q ∈ st.done then st.done else q :: st.done)
            else st.done }
      else st := by
  cases st with
  | mk ba up cr dn =>
    simp only at hba
    subst hba
    by_cases hq : q ∈ interest <;>
      simp [ppStep, hev, resolveFinal_nil, hq]

lemma procStep_touch_nil {interest : List String} {st : ProcState} {r : GitRecord}
    {status q : String} (hbt : st.backTrace = fun _ => none)
    (hev : r.ev = GitEv.touch status q) :
    procStep interest st r = if q ∈ interest then attrib st q r.ts else st := by
  by_cases hq : q ∈ interest <;> simp [procStep, hev, btFinal, hbt, hq]

lemma ppRun_prefix (interest : List String) :
    ∀ (recs : List GitRecord) (st : PPState),
      ∃ n ≤ recs.length,
        ppRun interest st recs = ppRunNB interest st (recs.take n) ∧
        (n = recs.length ∨ (ppRun interest st recs).done.length = interest.length) := by
  intro recs
  induction recs with
  | nil =>
    intro st
    exact ⟨0, Nat.le_refl 0, rfl, Or.inl rfl⟩
  | cons r rs ih =>
    intro st
    by_cases hb : isBreakRec interest st r = true
    · refine ⟨1, by simp, ?_, Or.inr ?_⟩
      · simp [ppRun, ppRunNB, hb]
      · have hstop : ppRun interest st (r :: rs) = ppStep interest st r := by
          simp [ppRun, hb]
        rw [hstop]
        exact isBreakRec_done hb
    · obtain ⟨n, hn, heq, hdisj⟩ := ih (ppStep interest st r)
      have h1 : ppRun interest st (r :: rs) = ppRun interest (ppStep interest st r) rs := by
        simp [ppRun, hb]
      refine ⟨n + 1, by simpa using Nat.succ_le_succ hn, ?_, ?_⟩
      · rw [List.take_succ_cons, h1, heq]
        simp [ppRunNB]
      · rcases hdisj with h | h
        · exact Or.inl (by simp [h])
        · rw [h1]
          exact Or.inr h

lemma ppRunNB_sim (interest : List String) :
    ∀ (recs : List GitRecord) (stq : PPState) (stp : ProcState),
      noRenames recs → stq.backAlias = [] → stp.backTrace = (fun _ => none) →
      stq.updated = stp.updated → stq.created = stp.created →
      (ppRunNB interest stq recs).updated = (procRun interest stp recs).updated ∧
      (ppRunNB interest stq recs).created = (procRun interest stp recs).created := by
  intro recs
  induction recs with
  | nil =>
    intro stq stp _ _ _ hu hc
    exact ⟨by simpa [ppRunNB, procRun] using hu, by simpa [ppRunNB, procRun] using hc⟩
  | cons r rs ih =>
    intro stq stp hnr hba hbt hu hc
    have hnr2 : noRenames rs := fun x hx => hnr x (List.mem_cons_of_mem r hx)
    cases hev : r.ev with
    | rename o nn =>
      exfalso
      have := hnr r (List.mem_cons_self r rs)
      unfold isRenameRec at this
      rw [hev] at this
      cases this
    | touch status q =>
      rw [show ppRunNB interest stq (r :: rs) = ppRunNB interest (ppStep interest stq r) rs
        from by simp [ppRunNB]]
      rw [show procRun interest stp (r :: rs) = procRun interest (procStep interest stp r) rs
        from by simp [procRun]]
      apply ih
      · exact hnr2
      · rw [ppStep_touch_nil hba hev]
        by_cases hq : q ∈ interest <;> simp [hq, hba]
      · rw [procStep_touch_nil hbt hev]
        by_cases hq : q ∈ interest <;> simp [hq, attrib, hbt]
      · rw [ppStep_touch_nil hba hev, procStep_touch_nil hbt hev]
        by_cases hq : q ∈ interest
        · simp [hq, attrib, hu]
        · simp [hq, hu]
      · rw [ppStep_touch_nil hba hev, procStep_touch_nil hbt hev]
        by_cases hq : q ∈ interest
        · simp [hq, attrib, hc]
        · simp [hq, hc]

lemma ppStep_done_eq (interest : List String) (st : PPState) (r : GitRecord) :
    (ppStep interest st r).done = st.done ∨
    ∃ q, q ∈ interest ∧ q ∉ st.done ∧ (ppStep interest st r).done = q :: st.done := by
  obtain ⟨ts, ev⟩ := r
  cases ev with
  | rename o nn =>
    left
    by_cases h : (resolveFinal st.backAlias (st.backAlias.length + 1) nn).1 ∈ interest <;>
      simp [ppStep, h]
  | touch status q =>
    by_cases h : (resolveFinal st.backAlias (st.backAlias.length + 1) q).1 ∈ interest
    · by_cases hst : status = "A"
      · by_cases hd : (resolveFinal st.backAlias (st.backAlias.length + 1) q).1 ∈ st.done
        · left
          simp [ppStep, h, hst, hd]
        · right
          exact ⟨(resolveFinal st.backAlias (st.backAlias.length + 1) q).1, h, hd,
            by simp [ppStep, h, hst, hd]⟩
      · left
        simp [ppStep, h, hst]
    · left
      simp [ppStep, h]

lemma ppRunNB_done_sub (interest : List String) :
    ∀ (recs : List GitRecord) (st : PPState),
      (∀ x ∈ st.done, x ∈ interest) →
      ∀ x ∈ (ppRunNB interest st recs).done, x ∈ interest := by
  intro recs
  induction recs with
  | nil =>
    intro st h x hx
    exact h x (by simpa [ppRunNB] using hx)
  | cons r rs ih =>
    intro st h x hx
    rw [show ppRunNB interest st (r :: rs) = ppRunNB interest (ppStep interest st r) rs
      from by simp [ppRunNB]] at hx
    refine ih (ppStep interest st r) ?_ x hx
    intro y hy
    rcases ppStep_done_eq interest st r with hdq | ⟨q, hq, hqd, hdq⟩
    · rw [hdq] at hy
      exact h y hy
    · rw [hdq] at hy
      rcases List.mem_cons.mp hy with h2 | h2
      · rw [h2]
        exact hq
      · exact h y h2

lemma ppRunNB_done_nodup (interest : List String) :
    ∀ (recs : List GitRecord) (st : PPState),
      st.done.Nodup → (ppRunNB interest st recs).done.Nodup := by
  intro recs
  induction recs with
  | nil =>
    intro st h
    simpa [ppRunNB] using h
  | cons r rs ih =>
    intro st h
    rw [show ppRunNB interest st (r :: rs) = ppRunNB interest (ppStep interest st r) rs
      from by simp [ppRunNB]]
    refine ih (ppStep interest st r) ?_
    rcases ppStep_done_eq interest st r with hdq | ⟨q, _, hqd, hdq⟩
    · rw [hdq]
      exact h
    · rw [hdq]
      exact List.nodup_cons.mpr ⟨hqd, h⟩

lemma ppRunNB_done_origin (interest : List String) :
    ∀ (recs : List GitRecord) (st : PPState),
      noRenames recs → st.backAlias = [] →
      ∀ p, p ∈ (ppRunNB interest st recs).done →
        p ∈ st.done ∨ ∃ r ∈ recs, isATouch p r = true := by
  intro recs
  induction recs with
  | nil =>
    intro st _ _ p hp
    exact Or.inl (by simpa [ppRunNB] using hp)
  | cons r rs ih =>
    intro st hnr hba p hp
    have hnr2 : noRenames rs := fun x hx => hnr x (List.mem_cons_of_mem r hx)
    cases hev : r.ev with
    | rename o nn =>
      exfalso
      have := hnr r (List.mem_cons_self r rs)
      unfold isRenameRec at this
      rw [hev] at this
      cases this
    | touch status q =>
      rw [show ppRunNB interest st (r :: rs) = ppRunNB interest (ppStep interest st r) rs
        from by simp [ppRunNB]] at hp
      have hba2 : (ppStep interest st r).backAlias = [] := by
        rw [ppStep_touch_nil hba hev]
        by_cases hq : q ∈ interest <;> simp [hq, hba]
      rcases ih (ppStep interest st r) hnr2 hba2 p hp with h | ⟨r2, hr2, hA2⟩
      · rw [ppStep_touch_nil hba hev] at h
        by_cases hq : q ∈ interest
        · rw [if_pos hq] at h
          simp only at h
          by_cases hst : status = "A"
          · rw [if_pos hst] at h
            by_cases hqd : q ∈ st.done
            · rw [if_pos hqd] at h
              exact Or.inl h
            · rw [if_neg hqd] at h
              rcases List.mem_cons.mp h with h2 | h2
              · refine Or.inr ⟨r, List.mem_cons_self r rs, ?_⟩
                unfold isATouch
                rw [hev]
                simp [hst, h2]
              · exact Or.inl h2
          · rw [if_neg hst] at h
            exact Or.inl h
        · rw [if_neg hq] at h
          exact Or.inl h
      · exact Or.inr ⟨r2, List.mem_cons_of_mem r hr2, hA2⟩

lemma noTouchAfterA_split {p : String} :
    ∀ (l1 : List GitRecord) {rA : GitRecord} {l2 : List GitRecord},
      noTouchAfterA p (l1 ++ rA :: l2) = true → isATouch p rA = true →
      ∀ x ∈ l2, touchesPath p x = false := by
  intro l1
  induction l1 with
  | nil =>
    intro rA l2 h hA x hx
    simp only [List.nil_append] at h
    unfold noTouchAfterA at h
    rw [if_pos hA, Bool.and_eq_true] at h
    have := List.all_eq_true.mp h.1 x hx
    simpa using this
  | cons a l1 ih =>
    intro rA l2 h hA x hx
    simp only [List.cons_append] at h
    unfold noTouchAfterA at h
    by_cases ha : isATouch p a = true
    · rw [if_pos ha, Bool.and_eq_true] at h
      have hx2 : x ∈ l1 ++ rA :: l2 :=
        List.mem_append_right l1 (List.mem_cons_of_mem rA hx)
      have := List.all_eq_true.mp h.1 x hx2
      simpa using this
    · rw [if_neg ha] at h
      exact ih h hA x hx

lemma filter_touch_take {p : String} {recs : List GitRecord} {n : Nat} {rA : GitRecord}
    (hmem : rA ∈ recs.take n) (hA : isATouch p rA = true)
    (hcond : noTouchAfterA p recs = true) :
    recs.filter (fun r => touchesPath p r) = (recs.take n).filter (fun r => touchesPath p r) := by
  obtain ⟨l1, l2, hsplit⟩ := List.append_of_mem hmem
  have hrecs : recs = recs.take n ++ recs.drop n := (List.take_append_drop n recs).symm
  have hrecs2 : recs = l1 ++ rA :: (l2 ++ recs.drop n) := by
    conv_lhs => rw [hrecs, hsplit]
    simp [List.append_assoc]
  have hnotouch := noTouchAfterA_split l1 (by rw [← hrecs2]; exact hcond) hA
  have hdropnil : (recs.drop n).filter (fun r => touchesPath p r) = [] := by
    rw [List.filter_eq_nil_iff]
    intro a ha
    have := hnotouch a (List.mem_append_right l2 ha)
    simp [this]
  conv_lhs => rw [hrecs]
  rw [List.filter_append, hdropnil, List.append_nil]

lemma done_full_mem {interest done2 : List String} (hnd : interest.Nodup)
    (hsub : ∀ x ∈ done2, x ∈ interest) (hdn : done2.Nodup)
    (hlen : done2.length = interest.length) :
    ∀ p ∈ interest, p ∈ done2 := by
  have hsubf : done2.toFinset ⊆ interest.toFinset := by
    intro x hx
    rw [List.mem_toFinset] at hx
    rw [List.mem_toFinset]
    exact hsub x hx
  have hcard : interest.toFinset.card ≤ done2.toFinset.card := by
    rw [List.toFinset_card_of_nodup hnd, List.toFinset_card_of_nodup hdn, hlen]
  have hfeq := Finset.eq_of_subset_of_card_le hsubf hcard
  intro p hp
  have hpf : p ∈ done2.toFinset := by
    rw [hfeq]
    exact List.mem_toFinset.mpr hp
  exact List.mem_toFinset.mp hpf

/-- C2 (amended): on a rename-free stream over a duplicate-free interest set,
the early-stopping builder of `process_posts.py` and the full-scan builder of
`proc.py` produce the same mapping, provided no record touching an interest
path occurs later in the stream (older in history) than an `A` record for
that path — i.e. no path is deleted and re-added.  Without that proviso the
two builders differ, as the counterexample shows. -/
theorem early_stop_full_scan_agree_without_readd (interest : List String)
    (recs : List GitRecord) (hnr : noRenames recs) (hnd : interest.Nodup)
    (hcond : ∀ p ∈ interest, noTouchAfterA p recs = true) :
    ∀ k, ppResult interest recs k = procResult interest recs k := by
  obtain ⟨n, hn, heq, hdisj⟩ := ppRun_prefix interest recs ppInit
  have hnrtake : noRenames (recs.take n) := fun r hr => hnr r (List.take_subset n recs hr)
  obtain ⟨hsimU, hsimC⟩ :=
    ppRunNB_sim interest (recs.take n) ppInit procInit hnrtake rfl rfl rfl rfl
  intro k
  by_cases hk : k ∈ interest
  · have hfeq : recs.filter (fun r => touchesPath k r)
        = (recs.take n).filter (fun r => touchesPath k r) := by
      rcases hdisj with h | h
      · rw [h, List.take_length]
      · rw [heq] at h
        have hsub := ppRunNB_done_sub interest (recs.take n) ppInit
          (by intro x hx; cases hx)
        have hndp := ppRunNB_done_nodup interest (recs.take n) ppInit List.nodup_nil
        have hmem := done_full_mem hnd hsub hndp h k hk
        rcases ppRunNB_done_origin interest (recs.take n) ppInit hnrtake rfl k hmem with
          h0 | ⟨rA, hrA, hA⟩
        · cases h0
        · exact filter_touch_take hrA hA (hcond k hk)
    obtain ⟨huFull, hcFull⟩ := procRun_norename_char hk recs procInit hnr rfl
    obtain ⟨huTake, hcTake⟩ := procRun_norename_char hk (recs.take n) procInit hnrtake rfl
    unfold ppResult procResult
    rw [if_pos hk, if_pos hk, heq, hsimU, hsimC, huTake, hcTake, huFull, hcFull, hfeq]
  · unfold ppResult procResult
    rw [if_neg hk, if_neg hk]

theorem early_stop_full_scan_agree_without_readd_witness :
    ppResult ["b"] [⟨300, .touch "A" "b"⟩, ⟨100, .touch "M" "a"⟩] "b"
      = procResult ["b"] [⟨300, .touch "A" "b"⟩, ⟨100, .touch "M" "a"⟩] "b" :=
  early_stop_full_scan_agree_without_readd ["b"]
    [⟨300, .touch "A" "b"⟩, ⟨100, .touch "M" "a"⟩]
    (by unfold noRenames; decide) (by decide)
    (by unfold noTouchAfterA isATouch touchesPath; decide) "b"

end EstomProc
